import Mathlib

/-!
# Verification of pg-client-helper

A shallow embedding, in Lean 4, of the core of the `pg-client-helper`
TypeScript library (file `src/lib/pg-client-helper.ts` and its later
revision carrying the transaction functions and the optional `client`
argument):

* `transformQuery` — rewriting a SQL query with named parameters
  (`$name`-style keys) into a query with positional placeholders
  (`$1`, `$2`, ...) plus the ordered parameter list;
* `queryMultiple` / `query` / `querySingle` / `queryScalar` — the
  executor and the result shapers, modelled as trace-producing
  functions over an abstract connection pool and client;
* `beginTransaction` / `commitTransaction` / `rollbackTransaction`.

Strings are modelled as `List Char`.  The JavaScript regular-expression
machinery used by `transformQuery` (`new RegExp(escapedKey, "g")` where
`escapedKey` escapes only the dollar signs of the key) is modelled by a
small pattern language: the pattern is parsed from the escaped key, a
backslash escape stands for its literal character, `.` is the wildcard
matching any character except a line terminator, and every other
character stands for itself.  This is exactly the fragment of
JavaScript regular expressions that escaped keys exercise as long as
the key contains no other regex metacharacter (quantifiers, classes,
groups, alternation); keys outside that fragment are treated literally
here, which may diverge from the JavaScript engine, and every general
theorem below restricts keys to the faithful fragment.  The JavaScript
replacement string (`$` followed by the 1-based index) is inserted
literally, which agrees with `String.replace` because the compiled
patterns contain no capture groups.
-/

/-- Identifier characters of a SQL-ish named parameter: ASCII letters,
digits and underscore.  Used only in hypotheses and invariants, never in
the embedded code itself. -/
def isIdentChar (c : Char) : Bool :=
  c.isAlphanum || c = '_'

/-- `identHead l` is true when `l` starts with an identifier character
(and in particular is nonempty). -/
def identHead : List Char → Bool
  | [] => false
  | c :: _ => isIdentChar c

/-- `key.startsWith "$"` of the source. -/
def startsDollar : List Char → Bool
  | '$' :: _ => true
  | _ => false

/-- `key.replace(/\$/g, "\\$")` of the source: escape every dollar sign
of the key before compiling it to a regular expression. -/
def escapeDollars : List Char → List Char
  | [] => []
  | c :: s => if c = '$' then '\\' :: '$' :: escapeDollars s else c :: escapeDollars s

/-- One token of the compiled pattern: a literal character, or the `.`
wildcard. -/
inductive PatTok where
  | lit (c : Char)
  | anyChar
deriving DecidableEq, Repr

/-- JavaScript line terminators, the characters `.` does not match. -/
def isLineTerm (c : Char) : Bool :=
  c = (Char.ofNat 10) || c = (Char.ofNat 13) || c = (Char.ofNat 0x2028) || c = (Char.ofNat 0x2029)

/-- Whether one pattern token matches one character. -/
def tokMatches : PatTok → Char → Bool
  | .lit c, d => c = d
  | .anyChar, d => !(isLineTerm d)

/-- The matching semantics of `new RegExp(escapedKey, "g")` of the
source, for the fragment of JavaScript regex syntax that escaped keys
generate: `\c` stands for the literal character `c` (exact for the
`\$` sequences produced by `escapeDollars`, and for any
non-alphanumeric `c`), `.` is the wildcard, and any other character
stands for itself (exact whenever the character is not a regex
metacharacter).  This function is total: the constructor's
`SyntaxError` path for invalid patterns is modelled separately by
`rxCompiles` and the refined `transformQueryJS` below, and every
theorem that relies on the pattern compiling restricts the key to
characters on which it does. -/
def parsePat : List Char → List PatTok
  | [] => []
  | '\\' :: c :: s => .lit c :: parsePat s
  | '.' :: s => .anyChar :: parsePat s
  | c :: s => .lit c :: parsePat s

/-- Does the pattern match a prefix of `s`?  All patterns here have
fixed width: each token consumes exactly one character. -/
def patMatchesAt : List PatTok → List Char → Bool
  | [], _ => true
  | _ :: _, [] => false
  | t :: ts, c :: s => tokMatches t c && patMatchesAt ts s

/-- `rxKey.test(out_query)` of the source: does the pattern match at
some position of `s`? -/
def patTest (p : List PatTok) : List Char → Bool
  | [] => patMatchesAt p []
  | c :: s => patMatchesAt p (c :: s) || patTest p s

/-- Worker of `replaceAllPat`.  The first numeric argument is the
number of characters of the current match still to be consumed (they
were already replaced by the inserted replacement); at `0` the scanner
is at a fresh position and tests the pattern there.  This formulation
is structurally recursive on the string, so it evaluates by kernel
reduction. -/
def raGo (p : List PatTok) (rep : List Char) : Nat → List Char → List Char
  | _, [] => []
  | Nat.succ n, _ :: s => raGo p rep n s
  | 0, c :: s =>
    if patMatchesAt p (c :: s) && !p.isEmpty then
      rep ++ raGo p rep (p.length - 1) s
    else
      c :: raGo p rep 0 s

/-- `out_query.replace(rxKey, replacement)` of the source: replace
every (leftmost, non-overlapping) match of the fixed-width pattern `p`
by `rep`, scanning left to right and never rescanning the inserted
replacement.  The replacement string is inserted literally, faithful to
`String.replace` because our patterns have no capture groups.  (For the
empty pattern, which no key of the source can produce, this
implementation replaces nothing.) -/
def replaceAllPat (p : List PatTok) (rep : List Char) (s : List Char) : List Char :=
  raGo p rep 0 s

/-- Worker of `replaceAllStr`, with the same skip-counter structure as
`raGo`. -/
def strGo (k rep : List Char) : Nat → List Char → List Char
  | _, [] => []
  | Nat.succ n, _ :: s => strGo k rep n s
  | 0, c :: s =>
    if k.isPrefixOf (c :: s) && !k.isEmpty then
      rep ++ strGo k rep (k.length - 1) s
    else
      c :: strGo k rep 0 s

/-- Fixed-string counterpart of `replaceAllPat`: replace every
(leftmost, non-overlapping) literal occurrence of `k` by `rep`.  For
keys inside the faithful fragment the compiled pattern behaves exactly
like this function (proved below), and the heavy lemmas are stated
about it. -/
def replaceAllStr (k rep : List Char) (s : List Char) : List Char :=
  strGo k rep 0 s

/-- Literal substring test: does `k` occur (as a fixed string) in `s`? -/
def occursB (k : List Char) : List Char → Bool
  | [] => k.isEmpty
  | c :: s => k.isPrefixOf (c :: s) || occursB k s

/-- The decimal digit character of `d` (for `d < 10`). -/
def digitChar (d : Nat) : Char :=
  Char.ofNat (48 + d)

/-- Worker of `natDigits`: structural recursion on a fuel argument
(chosen large enough that it never runs out). -/
def natDigitsAux : Nat → Nat → List Char
  | 0, _ => []
  | Nat.succ fuel, n =>
    if n < 10 then [digitChar n]
    else natDigitsAux fuel (n / 10) ++ [digitChar (n % 10)]

/-- Decimal representation of a natural number, most significant digit
first; models the JavaScript template interpolation of
`out_parameters.length`. -/
def natDigits (n : Nat) : List Char :=
  natDigitsAux (n + 1) n

/-- Head-digit test. -/
def headIsDigit : List Char → Bool
  | [] => false
  | c :: _ => c.isDigit

/-- Scanner state of `phIdx`: in plain text, just after a `$`, or
reading the digit run of a placeholder whose value so far is `n`. -/
inductive PhSt where
  | plain
  | dollar
  | num (n : Nat)
deriving DecidableEq, Repr

/-- Worker of `phIdx`: a left-to-right scanner emitting the value of
every maximal digit run that immediately follows a `$`. -/
def phGo : PhSt → List Char → List Nat
  | st, [] => (match st with | .num n => [n] | _ => [])
  | st, c :: s =>
    match st with
    | .num n =>
      if c.isDigit then phGo (.num (10 * n + (c.toNat - 48))) s
      else if c = '$' then n :: phGo .dollar s
      else n :: phGo .plain s
    | .dollar =>
      if c.isDigit then phGo (.num (c.toNat - 48)) s
      else if c = '$' then phGo .dollar s
      else phGo .plain s
    | .plain =>
      if c = '$' then phGo .dollar s else phGo .plain s

/-- The positional-placeholder indices occurring in a query string: for
every `$` that is immediately followed by a digit, the number read from
the maximal digit run after it, in order of occurrence. -/
def phIdx (s : List Char) : List Nat :=
  phGo .plain s

deriving instance DecidableEq for Except

/-- A named-parameter value of the source: either a scalar (opaque to
the transformer) or an array of scalars.  `isArray` of the source sends
`arr` values (including the empty array, which is truthy in
JavaScript) to the array branch and everything else to the scalar
branch. -/
inductive PValue (α : Type) where
  | prim (v : α)
  | arr (l : List α)
deriving DecidableEq, Repr

/-- The `in_params` argument of `transformQuery`: absent, already an
ordered array (both passed through unchanged), or an object with named
parameters, modelled as an association list in property-insertion
order. -/
inductive QueryParams (α : Type) where
  | noParams
  | positional (l : List α)
  | named (kvs : List (List Char × PValue α))
deriving DecidableEq, Repr

/-- The error thrown by `transformQuery` when a key does not start with
a dollar sign. -/
inductive TQErr where
  | invalidParamName (key : List Char)
deriving DecidableEq, Repr

/-- Stable insertion of a key into a length-descending sorted list: the
inserted key goes before the first key of smaller-or-equal length
status — precisely, before the first key whose length it
reaches-or-exceeds — so keys inserted from the right end up after
earlier keys of equal length. -/
def insertKeyDesc (x : List Char) : List (List Char) → List (List Char)
  | [] => [x]
  | y :: ys => if y.length ≤ x.length then x :: y :: ys else y :: insertKeyDesc x ys

/-- `keys.sort((a, b) => b.length - a.length)` of the source: a stable
sort by key length, descending.  ECMAScript guarantees `Array#sort` to
be stable, and any stable sort for this comparator produces this
list. -/
def sortKeysDesc (keys : List (List Char)) : List (List Char) :=
  keys.foldr insertKeyDesc []

/-- The loop body of `transformQuery` for an array-valued parameter:
`out_parameters.push(item)` followed by
`concatKeys += (concatKeys ? ", " : "") + "$" + out_parameters.length`
for each element, threading the parameter list `ps` and the
accumulated `concatKeys` string `acc`. -/
def pushArr {α : Type} : List α → List α → List Char → List α × List Char
  | [], ps, acc => (ps, acc)
  | x :: xs, ps, acc =>
    pushArr xs (ps ++ [x])
      (acc ++ (if acc.isEmpty then [] else [',', ' ']) ++ '$' :: natDigits (ps.length + 1))

/-- The `for (const key of keys)` loop of `transformQuery`, threading
the rewritten query `q` and the positional parameter list `ps`.
`kvs` is the original parameter object, used to look the key's value
up; the `none` lookup branch is unreachable because every processed key
is a key of `kvs`. -/
def tqLoop {α : Type} (kvs : List (List Char × PValue α)) :
    List (List Char) → List Char → List α → Except TQErr (List Char × List α)
  | [], q, ps => .ok (q, ps)
  | key :: rest, q, ps =>
    if !(startsDollar key) then
      .error (.invalidParamName key)
    else
      let rx := parsePat (escapeDollars key)
      if !(patTest rx q) then
        tqLoop kvs rest q ps
      else
        match List.lookup key kvs with
        | none => tqLoop kvs rest q ps
        | some (.prim v) =>
          tqLoop kvs rest (replaceAllPat rx ('$' :: natDigits (ps.length + 1)) q) (ps ++ [v])
        | some (.arr l) =>
          match pushArr l ps [] with
          | (ps2, concatKeys) => tqLoop kvs rest (replaceAllPat rx concatKeys q) ps2

/-- `transformQuery` of the source.  The passthrough branches return
the parameters as given (`none` for an absent argument); the named
branch sorts the keys by length descending and runs the loop starting
from the original query and an empty parameter list. -/
def transformQuery {α : Type} (in_query : List Char) :
    QueryParams α → Except TQErr (List Char × Option (List α))
  | .noParams => .ok (in_query, none)
  | .positional l => .ok (in_query, some l)
  | .named kvs =>
    match tqLoop kvs (sortKeysDesc (kvs.map Prod.fst)) in_query [] with
    | .error e => .error e
    | .ok (q, ps) => .ok (q, some ps)

/-- A database row as handed back by the `pg` client: column names
paired with values, in the column-declaration order of the driver
(JavaScript object property insertion order). -/
def Row (ν α : Type) : Type := List (ν × α)

/-- Errors surfaced by the executor: the transformer error, or an error
raised by the pool / the database client (opaque, of type `ε`). -/
inductive QErr (ε : Type) where
  | invalidParamName (key : List Char)
  | db (e : ε)
deriving DecidableEq, Repr

/-- An abstract `pg` client: `runQuery q ps` models
`client.query(...[q, ps])` and either returns rows or fails.  The
behaviour is an arbitrary function, quantified over in the theorems. -/
structure Client (ν α ε : Type) where
  runQuery : List Char → Option (List α) → Except ε (List (Row ν α))

/-- An abstract connection pool: `connect` models `pool.connect()`,
yielding a client or failing. -/
structure Pool (ν α ε : Type) where
  connect : Except ε (Client ν α ε)

/-- Observable resource events of one executor call: acquiring a
connection from the pool, running a statement, releasing the
connection. -/
inductive Event (α : Type) where
  | acquire
  | run (q : List Char) (ps : Option (List α))
  | release
deriving DecidableEq, Repr

/-- Count the `release` events of a trace. -/
def releaseCount {α : Type} (tr : List (Event α)) : Nat :=
  (tr.filter (fun e => match e with | .release => true | _ => false)).length

/-- Is some `run` event present in a trace? -/
def hasRun {α : Type} (tr : List (Event α)) : Bool :=
  tr.any (fun e => match e with | .run _ _ => true | _ => false)

/-- The body of `queryMultiple` once a client is at hand: transform the
query (a failure propagates), run it, and in a `finally` step release
the client exactly when this call created it. -/
def qmBody {ν α ε : Type} (c : Client ν α ε) (created : Bool)
    (q : List Char) (params : QueryParams α) :
    Except (QErr ε) (List (Row ν α)) × List (Event α) :=
  match transformQuery q params with
  | .error (.invalidParamName k) =>
    (.error (.invalidParamName k), if created then [.release] else [])
  | .ok (q2, ps) =>
    match c.runQuery q2 ps with
    | .error e => (.error (.db e), .run q2 ps :: (if created then [.release] else []))
    | .ok rows => (.ok rows, .run q2 ps :: (if created then [.release] else []))

/-- `queryMultiple` of the source (the revision with the optional
`client` argument): if no client is supplied, acquire one from the pool
(an acquisition failure is logged and rethrown before anything else
happens), then run the body with `isClientCreatedHere` recorded. -/
def queryMultiple {ν α ε : Type} (pool : Pool ν α ε) (q : List Char)
    (params : QueryParams α) (client : Option (Client ν α ε)) :
    Except (QErr ε) (List (Row ν α)) × List (Event α) :=
  match client with
  | some c => qmBody c false q params
  | none =>
    match pool.connect with
    | .error e => (.error (.db e), [])
    | .ok c =>
      match qmBody c true q params with
      | (res, tr) => (res, .acquire :: tr)

/-- `query` of the source: delegate to `queryMultiple` and discard the
rows. -/
def queryNone {ν α ε : Type} (pool : Pool ν α ε) (q : List Char)
    (params : QueryParams α) (client : Option (Client ν α ε)) :
    Except (QErr ε) Unit × List (Event α) :=
  match queryMultiple pool q params client with
  | (res, tr) => (res.map (fun _ => ()), tr)

/-- `querySingle` of the source: delegate to `queryMultiple` and take
`rows[0]` (absent when the result set is empty). -/
def querySingle {ν α ε : Type} (pool : Pool ν α ε) (q : List Char)
    (params : QueryParams α) (client : Option (Client ν α ε)) :
    Except (QErr ε) (Option (Row ν α)) × List (Event α) :=
  match queryMultiple pool q params client with
  | (res, tr) => (res.map List.head?, tr)

/-- `queryScalar` of the source: delegate to `querySingle`; return
`null` when there is no row, and otherwise `row[Object.keys(row)[0]]`,
the value of the first column in the driver's column order (absent for
a columnless row, where the source yields `undefined`). -/
def queryScalar {ν α ε : Type} (pool : Pool ν α ε) (q : List Char)
    (params : QueryParams α) (client : Option (Client ν α ε)) :
    Except (QErr ε) (Option α) × List (Event α) :=
  match querySingle pool q params client with
  | (res, tr) =>
    (res.map (fun row? =>
      match row? with
      | none => none
      | some [] => none
      | some ((_, v) :: _) => some v), tr)

/-- `beginTransaction` of the source: `pool.connect()` then
`client.query("BEGIN")` then return the client.  There is no cleanup
step: a failing `BEGIN` propagates with the client left unreleased. -/
def beginTransaction {ν α ε : Type} (pool : Pool ν α ε) :
    Except ε (Client ν α ε) × List (Event α) :=
  match pool.connect with
  | .error e => (.error e, [])
  | .ok c =>
    match c.runQuery ("BEGIN".toList) none with
    | .error e => (.error e, [.acquire, .run ("BEGIN".toList) none])
    | .ok _ => (.ok c, [.acquire, .run ("BEGIN".toList) none])

/-- `commitTransaction` of the source: `client.query("COMMIT")` then
`client.release()`.  The release is not in a `finally` block: a failing
`COMMIT` propagates without releasing. -/
def commitTransaction {ν α ε : Type} (c : Client ν α ε) :
    Except ε Unit × List (Event α) :=
  match c.runQuery ("COMMIT".toList) none with
  | .error e => (.error e, [.run ("COMMIT".toList) none])
  | .ok _ => (.ok (), [.run ("COMMIT".toList) none, .release])

/-- `rollbackTransaction` of the source: `client.query("ROLLBACK")`
then `client.release()`, with the same structure as
`commitTransaction`. -/
def rollbackTransaction {ν α ε : Type} (c : Client ν α ε) :
    Except ε Unit × List (Event α) :=
  match c.runQuery ("ROLLBACK".toList) none with
  | .error e => (.error e, [.run ("ROLLBACK".toList) none])
  | .ok _ => (.ok (), [.run ("ROLLBACK".toList) none, .release])

/-- JavaScript regular-expression metacharacters (the characters that
do not stand for themselves in a pattern). -/
def isMetaChar (c : Char) : Bool :=
  c = '\\' || c = '^' || c = '$' || c = '.' || c = '*' || c = '+' || c = '?' ||
  c = '(' || c = ')' || c = '[' || c = ']' || c = (Char.ofNat 123) ||
  c = (Char.ofNat 125) || c = '|'

/-- Characters whose compiled pattern token is the literal character
itself: the dollar sign (escaped by `escapeDollars`) and every
non-metacharacter. -/
def plainCharB (c : Char) : Bool :=
  c = '$' || !(isMetaChar c)

/-- A key of the shape the specification's data model prescribes for
named placeholders: a dollar sign followed by a nonempty identifier
that does not start with a digit. -/
def goodKeyB : List Char → Bool
  | c :: d :: t => c = '$' && isIdentChar d && !d.isDigit && t.all isIdentChar
  | _ => false

/-- The number of positions of `s` at which `k` occurs (as a fixed
string). -/
def occCount (k : List Char) : List Char → Nat
  | [] => 0
  | c :: s => (if k.isPrefixOf (c :: s) then 1 else 0) + occCount k s

/-- `CleanP k s`: every occurrence of `k` in `s` is followed by a
non-identifier character or the end of the string ("no token
collision" for `k`). -/
def CleanP (k s : List Char) : Prop :=
  ∀ a b, s = a ++ k ++ b → identHead b = false

/-- Per-position check of `covOKB`: if `k` occurs at the head of `s`
and is followed by an identifier character, some strictly longer key of
`keys` must also occur at the head of `s` and be followed by a
non-identifier character or the end. -/
def covAtOK (keys : List (List Char)) (k s : List Char) : Bool :=
  !(k.isPrefixOf s) || !(identHead (List.drop k.length s)) ||
    keys.any (fun k2 =>
      decide (k.length < k2.length) && k2.isPrefixOf s && !(identHead (List.drop k2.length s)))

/-- `covOKB keys k s`: every occurrence of `k` in `s` is either
followed by a non-identifier character (or the end), or lies at the
start of an occurrence of a strictly longer key of `keys` that is
itself followed by a non-identifier character (or the end).  This is
the formal shape of the specification's "named-style query without
token collisions": a shorter key may occur inside a longer key's
occurrence, and any other occurrence must be a maximal identifier
token. -/
def covOKB (keys : List (List Char)) (k : List Char) : List Char → Bool
  | [] => true
  | c :: s => covAtOK keys k (c :: s) && covOKB keys k s

/-- A client whose every statement fails (with error code `7`). -/
def cFailAll : Client Nat Nat Nat :=
  ⟨fun _ _ => .error 7⟩

/-- A client whose every statement succeeds with an empty result
set. -/
def cOkEmpty : Client Nat Nat Nat :=
  ⟨fun _ _ => .ok []⟩

/-- A client returning one row whose column-declaration order is the
reverse of the alphabetical order of its column names. -/
def cRowZA : Client String Nat Nat :=
  ⟨fun _ _ => .ok [[("z_col", 10), ("a_col", 20)]]⟩

/-- A pool handing out a given client. -/
def poolOf {ν α ε : Type} (c : Client ν α ε) : Pool ν α ε :=
  ⟨.ok c⟩

/-- A pool whose acquisition fails (with error code `3`). -/
def poolFail : Pool Nat Nat Nat :=
  ⟨.error 3⟩

/-- Propositional form of `goodKeyB`: a dollar sign followed by a
nonempty identifier not starting with a digit. -/
def GoodKeyP (k : List Char) : Prop :=
  ∃ t, k = '$' :: t ∧ t ≠ [] ∧ (∀ c ∈ t, isIdentChar c = true) ∧
    (∀ c, t.head? = some c → c.isDigit = false)

/-- The shape of every replacement string `transformQuery` inserts: it
is empty or starts with `$`, and every `$` inside it is immediately
followed by a digit (within the string). -/
def GoodRepP (rep : List Char) : Prop :=
  (rep = [] ∨ rep.head? = some '$') ∧
  ∀ a b, rep = a ++ '$' :: b → b ≠ [] ∧ (∀ c, b.head? = some c → c.isDigit = true)

/-- Propositional form of `covOKB` relative to a key list: every
occurrence of `k` in `s` is followed by a non-identifier character (or
the end), or is covered by an occurrence, at the same position, of a
strictly longer key of `keys` that is itself followed by a
non-identifier character (or the end). -/
def CovP (keys : List (List Char)) (k s : List Char) : Prop :=
  ∀ a b, s = a ++ k ++ b →
    identHead b = false ∨
    ∃ k2, k2 ∈ keys ∧ k.length < k2.length ∧ k2 <+: (k ++ b) ∧
      identHead (List.drop k2.length (k ++ b)) = false

/-! ## Refined model: the `RegExp` constructor's syntax-error path -/

/-- Errors of the refined model `transformQueryJS`, which keeps the
failure path of `new RegExp(escapedKey, "g")` instead of collapsing it:
either the source's own invalid-parameter-name error, or a pattern the
constructor rejects with a `SyntaxError`. -/
inductive TQJErr where
  | invalidParamName (key : List Char)
  | badPattern (pat : List Char)
deriving DecidableEq, Repr

/-- Delimiter scanner for `rxCompiles`: walks the pattern tracking the
open-group depth, whether the scan is inside a character class, and
whether the current character is escaped by a preceding backslash.  The
pattern is accepted when the scan ends at depth zero, outside any
class, with no dangling backslash; it is rejected on an unmatched `)`
and at a truncated end (an unterminated group or class, or a lone
trailing backslash). -/
def rxScan : Nat → Bool → Bool → List Char → Bool
  | depth, inClass, esc, [] => !esc && !inClass && depth == 0
  | depth, inClass, esc, c :: s =>
    if esc then rxScan depth inClass false s
    else if c = '\\' then rxScan depth inClass true s
    else if inClass then
      (if c = ']' then rxScan depth false false s else rxScan depth inClass false s)
    else if c = '[' then rxScan depth true false s
    else if c = '(' then rxScan (depth + 1) inClass false s
    else if c = ')' then
      (match depth with
       | 0 => false
       | Nat.succ d => rxScan d inClass false s)
    else rxScan depth inClass false s

/-- Does `new RegExp(p, "g")` succeed?  This models the constructor's
delimiter checks: an unterminated group `(`, an unmatched `)`, an
unterminated character class `[` and a trailing lone `\` each raise
`SyntaxError`.  The constructor's remaining checks (quantifier
placement, `{m,n}` ordering) are not modelled; accordingly, every
general theorem below that relies on compilation succeeding restricts
the key's characters to `plainCharB` — no metacharacter at all — where
the constructor genuinely succeeds, and the refined model is evaluated
outside that fragment only on concrete patterns whose rejection is of
the delimiter kind modelled here. -/
def rxCompiles (p : List Char) : Bool :=
  rxScan 0 false false p

/-- The loop of `transformQuery` in the refined model: as `tqLoop`,
with the `new RegExp` construction's possible failure inserted between
the `startsWith("$")` check and the `test` call — exactly where the
source executes the constructor. -/
def tqLoopJS {α : Type} (kvs : List (List Char × PValue α)) :
    List (List Char) → List Char → List α → Except TQJErr (List Char × List α)
  | [], q, ps => .ok (q, ps)
  | key :: rest, q, ps =>
    if !(startsDollar key) then
      .error (.invalidParamName key)
    else if !(rxCompiles (escapeDollars key)) then
      .error (.badPattern (escapeDollars key))
    else
      let rx := parsePat (escapeDollars key)
      if !(patTest rx q) then
        tqLoopJS kvs rest q ps
      else
        match List.lookup key kvs with
        | none => tqLoopJS kvs rest q ps
        | some (.prim v) =>
          tqLoopJS kvs rest (replaceAllPat rx ('$' :: natDigits (ps.length + 1)) q) (ps ++ [v])
        | some (.arr l) =>
          match pushArr l ps [] with
          | (ps2, concatKeys) => tqLoopJS kvs rest (replaceAllPat rx concatKeys q) ps2

/-- `transformQuery` in the refined model: identical to
`transformQuery` except that the loop propagates the `RegExp`
constructor's failure. -/
def transformQueryJS {α : Type} (in_query : List Char) :
    QueryParams α → Except TQJErr (List Char × Option (List α))
  | .noParams => .ok (in_query, none)
  | .positional l => .ok (in_query, some l)
  | .named kvs =>
    match tqLoopJS kvs (sortKeysDesc (kvs.map Prod.fst)) in_query [] with
    | .error e => .error e
    | .ok (q, ps) => .ok (q, some ps)

/-- Inclusion of the collapsed model's results into the refined
model's. -/
def liftTQ {β : Type} : Except TQErr β → Except TQJErr β
  | .error (.invalidParamName k) => .error (.invalidParamName k)
  | .ok v => .ok v

/-! ## Bridging lemmas: compiled patterns of plain keys behave as fixed strings -/

theorem escapeDollars_of_no_dollar {t : List Char} (h : ∀ c ∈ t, c ≠ '$') :
    escapeDollars t = t := by
  induction t with
  | nil => rfl
  | cons c s ih =>
    have hc : c ≠ '$' := h c (by simp)
    simp only [escapeDollars, if_neg hc]
    rw [ih (fun d hd => h d (by simp [hd]))]

theorem parsePat_plain {t : List Char} (h : ∀ c ∈ t, plainCharB c = true) (hnd : '$' ∉ t) :
    parsePat t = t.map PatTok.lit := by
  induction t with
  | nil => rfl
  | cons c s ih =>
    have hc : plainCharB c = true := h c (by simp)
    have hcd : c ≠ '$' := by intro hh; exact hnd (by simp [hh])
    have hcm : isMetaChar c = false := by
      simp only [plainCharB, Bool.or_eq_true, decide_eq_true_eq] at hc
      rcases hc with hc | hc
      · exact absurd hc hcd
      · simpa using hc
    have hcb : c ≠ '\\' := by
      intro hh; rw [hh] at hcm; simp [isMetaChar] at hcm
    have hcdot : c ≠ '.' := by
      intro hh; rw [hh] at hcm; simp [isMetaChar] at hcm
    have step : parsePat (c :: s) = .lit c :: parsePat s := by
      match c, s, hcb, hcdot with
      | '\\', s, hb, hd => exact absurd rfl hb
      | '.', s, hb, hd => exact absurd rfl hd
      | c, s, hb, hd =>
        rw [parsePat]
        · exact fun c1 s1 hh _ => absurd hh hb
        · exact fun hh => absurd hh hd
    rw [step, ih (fun d hd => h d (by simp [hd])) (fun hh => hnd (by simp [hh])), List.map]

theorem parsePat_cons_plain {c : Char} {rest : List Char} (hb : c ≠ '\\') (hd : c ≠ '.') :
    parsePat (c :: rest) = .lit c :: parsePat rest := by
  match c, rest, hb, hd with
  | '\\', rest, hb, hd => exact absurd rfl hb
  | '.', rest, hb, hd => exact absurd rfl hd
  | c, rest, hb, hd =>
    rw [parsePat]
    · exact fun c1 s1 hh _ => absurd hh hb
    · exact fun hh => absurd hh hd

theorem not_backslash_of_plain {c : Char} (h : plainCharB c = true) : c ≠ '\\' := by
  intro hh
  rw [hh] at h
  simp [plainCharB, isMetaChar] at h

theorem not_dot_of_plain {c : Char} (h : plainCharB c = true) : c ≠ '.' := by
  intro hh
  rw [hh] at h
  simp [plainCharB, isMetaChar] at h

/-- For a key all of whose characters compile to themselves, the
compiled regular expression is the list of literal tokens of the key's
characters. -/
theorem parsePat_escape {k : List Char} (h : ∀ c ∈ k, plainCharB c = true) :
    parsePat (escapeDollars k) = k.map PatTok.lit := by
  induction k with
  | nil => rfl
  | cons c s ih =>
    by_cases hc : c = '$'
    · subst hc
      have hstep : parsePat (escapeDollars ('$' :: s)) =
          .lit '$' :: parsePat (escapeDollars s) := rfl
      rw [hstep, ih (fun d hd => h d (by simp [hd]))]
      rfl
    · have hpl : plainCharB c = true := h c (by simp)
      simp only [escapeDollars, if_neg hc]
      rw [parsePat_cons_plain (not_backslash_of_plain hpl) (not_dot_of_plain hpl)]
      rw [ih (fun d hd => h d (by simp [hd]))]
      rfl

/-- Literal-token patterns match exactly the fixed-string prefix
test. -/
theorem patMatchesAt_lit (k s : List Char) :
    patMatchesAt (k.map PatTok.lit) s = k.isPrefixOf s := by
  induction k generalizing s with
  | nil => cases s <;> simp [patMatchesAt, List.isPrefixOf]
  | cons c t ih =>
    cases s with
    | nil => simp [patMatchesAt, List.isPrefixOf]
    | cons d s =>
      simp only [List.map, patMatchesAt, List.isPrefixOf, tokMatches, ih]
      rcases Decidable.em (c = d) with h | h
      · simp [h]
      · simp [h]

/-- On literal-token patterns the replacement worker coincides with the
fixed-string replacement worker. -/
theorem raGo_lit (k rep : List Char) (n : Nat) (s : List Char) :
    raGo (k.map PatTok.lit) rep n s = strGo k rep n s := by
  induction s generalizing n with
  | nil => cases n <;> rfl
  | cons c s ih =>
    cases n with
    | succ m => simpa only [raGo, strGo] using ih m
    | zero =>
      rw [raGo, strGo, patMatchesAt_lit]
      simp only [List.isEmpty_eq_true, List.map_eq_nil_iff, List.length_map]
      by_cases h : k.isPrefixOf (c :: s) = true && !k.isEmpty
      · simp only [List.isEmpty_eq_true] at h
        rw [if_pos (by simpa using h), if_pos (by simpa using h), ih]
      · simp only [List.isEmpty_eq_true] at h
        rw [if_neg (by simpa using h), if_neg (by simpa using h), ih]

/-- On literal-token patterns `replaceAllPat` is the fixed-string
`replaceAllStr`. -/
theorem replaceAllPat_lit (k rep s : List Char) :
    replaceAllPat (k.map PatTok.lit) rep s = replaceAllStr k rep s :=
  raGo_lit k rep 0 s

/-- On literal-token patterns `patTest` is the literal substring
test. -/
theorem patTest_lit (k s : List Char) :
    patTest (k.map PatTok.lit) s = occursB k s := by
  induction s with
  | nil =>
    cases k with
    | nil => rfl
    | cons c t => rfl
  | cons c s ih =>
    rw [patTest, occursB, patMatchesAt_lit, ih]

/-- Characterization of `transformQuery` on a single-key parameter
object whose key is inside the faithful literal fragment: the key is
matched as a fixed string; if it does not occur the query is unchanged
and the parameter list is empty; otherwise every occurrence is replaced
(by the single placeholder for a scalar value, by the comma-joined
placeholder group for an array value) and the value's scalars are
appended to the parameter list exactly once. -/
theorem tq_single_plain {α : Type} (k : List Char) (v : PValue α) (s : List Char)
    (hd : startsDollar k = true) (hp : ∀ c ∈ k, plainCharB c = true) :
    transformQuery s (.named [(k, v)]) =
      (if occursB k s then
        (match v with
         | .prim x => .ok (replaceAllStr k ('$' :: natDigits 1) s, some [x])
         | .arr l => .ok (replaceAllStr k ((pushArr l ([] : List α) []).2) s,
             some ((pushArr l ([] : List α) []).1)))
       else .ok (s, some [])) := by
  have hsort : sortKeysDesc (List.map Prod.fst [(k, v)]) = [k] := rfl
  simp only [transformQuery, hsort]
  rw [tqLoop, hd]
  simp only [Bool.not_true, Bool.false_eq_true, if_false]
  rw [parsePat_escape hp, patTest_lit]
  by_cases hocc : occursB k s = true
  · rw [hocc]
    simp only [Bool.not_true, Bool.false_eq_true, if_false, if_true]
    have hlk : List.lookup k [(k, v)] = some v := by simp [List.lookup]
    rw [hlk]
    cases v with
    | prim x =>
      simp only [tqLoop, replaceAllPat_lit, List.nil_append, List.length_nil]
    | arr l =>
      simp only [tqLoop, replaceAllPat_lit]
  · have hocc2 : occursB k s = false := by simpa using hocc
    rw [hocc2]
    simp only [Bool.not_false, if_true, tqLoop]
    simp

/-! ## The key sort: length-descending, stable -/

theorem mem_insertKeyDesc {x z : List Char} {l : List (List Char)} :
    z ∈ insertKeyDesc x l ↔ z = x ∨ z ∈ l := by
  induction l with
  | nil => simp [insertKeyDesc]
  | cons y ys ih =>
    by_cases h : y.length ≤ x.length
    · simp [insertKeyDesc, h]
    · simp only [insertKeyDesc, if_neg h, List.mem_cons, ih]
      tauto

theorem pairwise_insertKeyDesc {x : List Char} {l : List (List Char)}
    (h : List.Pairwise (fun a b => b.length ≤ a.length) l) :
    List.Pairwise (fun a b => b.length ≤ a.length) (insertKeyDesc x l) := by
  induction l with
  | nil => simp [insertKeyDesc]
  | cons y ys ih =>
    rcases List.pairwise_cons.mp h with ⟨hy, hys⟩
    by_cases hle : y.length ≤ x.length
    · rw [insertKeyDesc, if_pos hle]
      refine List.pairwise_cons.mpr ⟨?_, h⟩
      intro z hz
      rcases List.mem_cons.mp hz with hz | hz
      · subst hz; exact hle
      · exact le_trans (hy _ hz) hle
    · rw [insertKeyDesc, if_neg hle]
      refine List.pairwise_cons.mpr ⟨?_, ih hys⟩
      intro z hz
      rcases mem_insertKeyDesc.mp hz with hz | hz
      · subst hz; omega
      · exact hy _ hz

theorem perm_insertKeyDesc (x : List Char) (l : List (List Char)) :
    (insertKeyDesc x l).Perm (x :: l) := by
  induction l with
  | nil => simp [insertKeyDesc]
  | cons y ys ih =>
    by_cases h : y.length ≤ x.length
    · simp [insertKeyDesc, h]
    · rw [insertKeyDesc, if_neg h]
      exact ((ih.cons y).trans (List.Perm.swap x y ys)).symm.symm

theorem sortKeysDesc_pairwise (keys : List (List Char)) :
    List.Pairwise (fun a b => b.length ≤ a.length) (sortKeysDesc keys) := by
  induction keys with
  | nil => simp [sortKeysDesc]
  | cons k ks ih => exact pairwise_insertKeyDesc ih

theorem sortKeysDesc_perm (keys : List (List Char)) :
    (sortKeysDesc keys).Perm keys := by
  induction keys with
  | nil => simp [sortKeysDesc]
  | cons k ks ih =>
    exact (perm_insertKeyDesc k (sortKeysDesc ks)).trans (ih.cons k)

theorem pushArr_fst {α : Type} (l : List α) :
    ∀ (ps : List α) (acc : List Char), (pushArr l ps acc).1 = ps ++ l := by
  induction l with
  | nil => intro ps acc; simp [pushArr]
  | cons x xs ih => intro ps acc; rw [pushArr, ih]; simp

/-! ## Claim theorems -/

/-- C1: `transformQuery` processes the keys of a named parameter set
longest-name-first: the list it iterates over is `sortKeysDesc` of the
keys, which is length-descending (`Pairwise`) and a permutation of the
keys; consequently, on the specification's own prefix-sharing example
the long key is substituted first and the output is
`"field = $1 AND field2 = $2"` with parameters
`["anotherValue", "value"]`. -/
theorem C1_longest_name_first :
    (∀ keys : List (List Char),
        List.Pairwise (fun a b => b.length ≤ a.length) (sortKeysDesc keys) ∧
        (sortKeysDesc keys).Perm keys) ∧
    transformQuery (α := String)
        (("field = $some_field_2 AND field2 = $some_field").toList)
        (.named [(("$some_field").toList, .prim "value"),
                 (("$some_field_2").toList, .prim "anotherValue")]) =
      .ok (("field = $1 AND field2 = $2").toList, some ["anotherValue", "value"]) := by
  refine ⟨fun keys => ⟨sortKeysDesc_pairwise keys, sortKeysDesc_perm keys⟩, by decide⟩

/-- C3 counterexample: the key `"$a."` does not occur literally in the
query `"x = $ab"`, yet `transformQuery` substitutes it (the `.` acts as
a regular-expression wildcard matching the `b`), because the source
escapes only the dollar sign of the key before compiling it with
`new RegExp`.  Under the claim — the key treated as a fixed literal
string — the query would come back unchanged with an empty parameter
list. -/
theorem C3_counterexample :
    transformQuery (α := String) (("x = $ab").toList)
        (.named [(("$a.").toList, .prim "v")]) =
      .ok (("x = $1").toList, some ["v"]) ∧
    occursB (("$a.").toList) (("x = $ab").toList) = false := by
  exact ⟨by decide, by decide⟩

/-- C3 amended: for every key whose characters after the leading `$`
compile to themselves (no regular-expression metacharacter; interior
dollar signs are fine since they are escaped), `transformQuery` scans
the query for the key as a fixed literal string and replaces all of its
occurrences, not just the first: on a single-key object the result is
exactly `replaceAllStr` (literal replacement of every occurrence) and
an unused key leaves the query unchanged. -/
theorem C3_literal_for_plain_keys {α : Type} (k : List Char) (v : PValue α) (s : List Char)
    (hd : startsDollar k = true) (hp : ∀ c ∈ k, plainCharB c = true) :
    transformQuery s (.named [(k, v)]) =
      (if occursB k s then
        (match v with
         | .prim x => .ok (replaceAllStr k ('$' :: natDigits 1) s, some [x])
         | .arr l => .ok (replaceAllStr k ((pushArr l ([] : List α) []).2) s,
             some ((pushArr l ([] : List α) []).1)))
       else .ok (s, some [])) :=
  tq_single_plain k v s hd hp

theorem C3_literal_witness :
    transformQuery (α := Nat) (("x = $a AND y = $a").toList)
        (.named [(("$a").toList, .prim 5)]) =
      .ok (("x = $1 AND y = $1").toList, some [5]) := by
  have h := C3_literal_for_plain_keys (α := Nat) (("$a").toList) (.prim 5)
      (("x = $a AND y = $a").toList) (by decide) (by decide)
  rw [h]
  decide

/-- C9: a key occurring in the query whose value is the empty array is
replaced — at every occurrence — by the empty string (`replaceAllStr`
with empty replacement, since the built `concatKeys` group is empty),
no element is appended to the parameter list, and the transformation
succeeds. -/
theorem C9_empty_array {α : Type} (k s : List Char)
    (hd : startsDollar k = true) (hp : ∀ c ∈ k, plainCharB c = true)
    (hocc : occursB k s = true) :
    transformQuery (α := α) s (.named [(k, .arr [])]) =
      .ok (replaceAllStr k [] s, some []) := by
  rw [tq_single_plain k (.arr []) s hd hp, if_pos hocc]
  rfl

theorem C9_empty_array_witness :
    transformQuery (α := Nat) (("SELECT * FROM t WHERE id IN ($ids)").toList)
        (.named [(("$ids").toList, .arr [])]) =
      .ok (("SELECT * FROM t WHERE id IN ()").toList, some []) := by
  have h := C9_empty_array (α := Nat) (("$ids").toList)
      (("SELECT * FROM t WHERE id IN ($ids)").toList) (by decide) (by decide) (by decide)
  rw [h]
  decide

/-- C10: when a key occurs more than once in the query, its value is
still appended to the positional parameter list only once: for a scalar
the parameter list is `[x]` and every occurrence is replaced by the
same placeholder `$1` (`replaceAllStr` inserts one fixed replacement
string at every occurrence); for an array the parameter list is exactly
the array's elements (appended once: `(pushArr l [] []).1 = l`) and
every occurrence is replaced by the same comma-joined placeholder
group. -/
theorem C10_multiple_occurrences {α : Type} (k s : List Char) (x : α) (l : List α)
    (hd : startsDollar k = true) (hp : ∀ c ∈ k, plainCharB c = true)
    (hocc : occursB k s = true) (_hmulti : 2 ≤ occCount k s) :
    transformQuery s (.named [(k, PValue.prim x)]) =
        .ok (replaceAllStr k ('$' :: natDigits 1) s, some [x]) ∧
    transformQuery s (.named [(k, PValue.arr l)]) =
        .ok (replaceAllStr k ((pushArr l ([] : List α) []).2) s,
          some ((pushArr l ([] : List α) []).1)) ∧
    (pushArr l ([] : List α) []).1 = l := by
  refine ⟨?_, ?_, by simpa using pushArr_fst l [] []⟩
  · rw [tq_single_plain k (.prim x) s hd hp, if_pos hocc]
  · rw [tq_single_plain k (.arr l) s hd hp, if_pos hocc]

theorem C10_multiple_occurrences_witness :
    transformQuery (α := Nat) (("x = $a AND y = $a").toList)
        (.named [(("$a").toList, PValue.prim 5)]) =
      .ok (("x = $1 AND y = $1").toList, some [5]) ∧
    transformQuery (α := Nat) (("id IN ($a) OR id2 IN ($a)").toList)
        (.named [(("$a").toList, PValue.arr [4, 5])]) =
      .ok (("id IN ($1, $2) OR id2 IN ($1, $2)").toList, some [4, 5]) := by
  have h1 := C10_multiple_occurrences (α := Nat) (("$a").toList)
      (("x = $a AND y = $a").toList) 5 [4, 5] (by decide) (by decide) (by decide) (by decide)
  have h2 := C10_multiple_occurrences (α := Nat) (("$a").toList)
      (("id IN ($a) OR id2 IN ($a)").toList) 5 [4, 5] (by decide) (by decide) (by decide)
      (by decide)
  refine ⟨?_, ?_⟩
  · rw [h1.1]; decide
  · rw [h2.2.1]; decide

theorem releaseCount_qmBody {ν α ε : Type} (c : Client ν α ε) (created : Bool)
    (q : List Char) (params : QueryParams α) :
    releaseCount (qmBody c created q params).2 = (if created then 1 else 0) := by
  cases htq : transformQuery (α := α) q params with
  | error e =>
    cases e with
    | invalidParamName k =>
      cases created <;> simp [qmBody, htq, releaseCount]
  | ok out =>
    match out with
    | (q2, ps) =>
      cases hrun : c.runQuery q2 ps with
      | error e => cases created <;> simp [qmBody, htq, hrun, releaseCount]
      | ok rows => cases created <;> simp [qmBody, htq, hrun, releaseCount]

/-- C4: `queryMultiple` releases the connection exactly once when and
only when it created it: with a caller-supplied client it never emits a
release event, on any outcome; with no client it emits exactly one
release event whenever acquisition succeeded (and none when acquisition
failed, in which case nothing was acquired) — again on every outcome of
the transformer and of the query.  `query`, `querySingle` and
`queryScalar` delegate to `queryMultiple` and produce the identical
event trace. -/
theorem C4_release_exactly_once {ν α ε : Type} (pool : Pool ν α ε) (q : List Char)
    (params : QueryParams α) :
    (∀ c : Client ν α ε,
        releaseCount (queryMultiple pool q params (some c)).2 = 0) ∧
    releaseCount (queryMultiple pool q params none).2 =
      (match pool.connect with | .ok _ => 1 | .error _ => 0) ∧
    (∀ copt : Option (Client ν α ε),
        (queryNone pool q params copt).2 = (queryMultiple pool q params copt).2 ∧
        (querySingle pool q params copt).2 = (queryMultiple pool q params copt).2 ∧
        (queryScalar pool q params copt).2 = (queryMultiple pool q params copt).2) := by
  refine ⟨?_, ?_, ?_⟩
  · intro c
    simpa [queryMultiple] using releaseCount_qmBody c false q params
  · cases hcon : pool.connect with
    | error e => simp [queryMultiple, hcon, releaseCount]
    | ok c =>
      have hb := releaseCount_qmBody c true q params
      cases hq : qmBody c true q params with
      | mk res tr =>
        rw [hq] at hb
        simp only [queryMultiple, hcon, hq]
        simpa [releaseCount] using hb
  · intro copt
    refine ⟨?_, ?_, ?_⟩
    · cases hq : queryMultiple pool q params copt with
      | mk res tr => simp [queryNone, hq]
    · cases hq : queryMultiple pool q params copt with
      | mk res tr => simp [querySingle, hq]
    · cases hq : queryMultiple pool q params copt with
      | mk res tr =>
        cases hq2 : querySingle pool q params copt with
        | mk res2 tr2 =>
          have : tr2 = tr := by
            rw [querySingle, hq] at hq2
            cases hq2
            rfl
          simp [queryScalar, hq2, this]

/-- C5 evaluation at the failing input: when `pool.connect` succeeds
and the `BEGIN` statement fails, `beginTransaction` propagates the
failure and returns no session, but the acquired client is never
released (the trace holds an acquire event and no release event) — the
handle leaks, contradicting the claim.  The acquisition-failure path is
clean: the failure propagates with nothing acquired. -/
theorem C5_begin_failure_leak :
    (beginTransaction (poolOf cFailAll)).1 = .error 7 ∧
    (beginTransaction (poolOf cFailAll)).2 =
      [Event.acquire, Event.run (("BEGIN").toList) none] ∧
    releaseCount (beginTransaction (poolOf cFailAll)).2 = 0 ∧
    (beginTransaction (α := Nat) (ν := Nat) poolFail).1 = .error 3 ∧
    (beginTransaction (α := Nat) (ν := Nat) poolFail).2 = [] := by
  exact ⟨rfl, rfl, rfl, rfl, rfl⟩

/-- C6 counterexample: on a client whose `COMMIT` (resp. `ROLLBACK`)
statement fails, `commitTransaction` (resp. `rollbackTransaction`)
propagates the error and releases nothing — zero release events — so
the handle is not "released exactly once regardless of whether the
statement succeeds or fails". -/
theorem C6_counterexample :
    (commitTransaction cFailAll).1 = .error 7 ∧
    releaseCount (commitTransaction cFailAll).2 = 0 ∧
    (rollbackTransaction cFailAll).1 = .error 7 ∧
    releaseCount (rollbackTransaction cFailAll).2 = 0 := by
  exact ⟨rfl, rfl, rfl, rfl⟩

/-- C6 amended: `commitTransaction` (resp. `rollbackTransaction`)
first issues the transaction-commit (resp. -rollback) statement on the
session's client, and then releases the handle only when the statement
succeeded: one release event on success, none on failure (where the
error propagates and releasing is left to the caller,
e.g. `rollbackTransaction` in the documented recovery pattern). -/
theorem C6_commit_rollback_release {ν α ε : Type} (c : Client ν α ε) :
    (commitTransaction c).2.head? = some (.run (("COMMIT").toList) none) ∧
    releaseCount (commitTransaction c).2 =
      (if (c.runQuery (("COMMIT").toList) none).isOk then 1 else 0) ∧
    (rollbackTransaction c).2.head? = some (.run (("ROLLBACK").toList) none) ∧
    releaseCount (rollbackTransaction c).2 =
      (if (c.runQuery (("ROLLBACK").toList) none).isOk then 1 else 0) := by
  unfold commitTransaction rollbackTransaction
  cases h1 : c.runQuery (("COMMIT").toList) none with
  | error e =>
    cases h2 : c.runQuery (("ROLLBACK").toList) none with
    | error e2 => simp [releaseCount, Except.isOk, Except.toBool]
    | ok u => simp [releaseCount, Except.isOk, Except.toBool]
  | ok u =>
    cases h2 : c.runQuery (("ROLLBACK").toList) none with
    | error e2 => simp [releaseCount, Except.isOk, Except.toBool]
    | ok u2 => simp [releaseCount, Except.isOk, Except.toBool]

theorem tqLoop_error_of_bad {α : Type} (kvs : List (List Char × PValue α)) :
    ∀ (keyList : List (List Char)) (q : List Char) (ps : List α),
      (∃ k, k ∈ keyList ∧ startsDollar k = false) →
      ∃ k, tqLoop kvs keyList q ps = .error (.invalidParamName k) ∧
        k ∈ keyList ∧ startsDollar k = false := by
  intro keyList
  induction keyList with
  | nil => intro q ps h; rcases h with ⟨k, hk, _⟩; simp at hk
  | cons key rest ih =>
    intro q ps h
    by_cases hk : startsDollar key = true
    · have hrest : ∃ k, k ∈ rest ∧ startsDollar k = false := by
        rcases h with ⟨k, hmem, hbad⟩
        rcases List.mem_cons.mp hmem with rfl | hmem
        · rw [hk] at hbad; cases hbad
        · exact ⟨k, hmem, hbad⟩
      rw [tqLoop, hk]
      simp only [Bool.not_true, Bool.false_eq_true, if_false]
      by_cases hpt : patTest (parsePat (escapeDollars key)) q = true
      · rw [hpt]
        simp only [Bool.not_true, Bool.false_eq_true, if_false]
        cases hlk : List.lookup key kvs with
        | none =>
          rcases ih q ps hrest with ⟨k, heq, hmem, hbad⟩
          exact ⟨k, heq, List.mem_cons_of_mem _ hmem, hbad⟩
        | some v =>
          cases v with
          | prim x =>
            rcases ih (replaceAllPat (parsePat (escapeDollars key))
                ('$' :: natDigits (ps.length + 1)) q) (ps ++ [x]) hrest with ⟨k, heq, hmem, hbad⟩
            exact ⟨k, heq, List.mem_cons_of_mem _ hmem, hbad⟩
          | arr l =>
            rcases ih (replaceAllPat (parsePat (escapeDollars key))
                (pushArr l ps []).2 q) (pushArr l ps []).1 hrest with ⟨k, heq, hmem, hbad⟩
            exact ⟨k, heq, List.mem_cons_of_mem _ hmem, hbad⟩
      · have hpt2 : patTest (parsePat (escapeDollars key)) q = false := by simpa using hpt
        rw [hpt2]
        simp only [Bool.not_false, if_true]
        rcases ih q ps hrest with ⟨k, heq, hmem, hbad⟩
        exact ⟨k, heq, List.mem_cons_of_mem _ hmem, hbad⟩
    · have hk2 : startsDollar key = false := by simpa using hk
      refine ⟨key, ?_, List.mem_cons_self _ _, hk2⟩
      rw [tqLoop, hk2]
      rfl

theorem tqLoop_ok_of_good {α : Type} (kvs : List (List Char × PValue α)) :
    ∀ (keyList : List (List Char)) (q : List Char) (ps : List α),
      (∀ k ∈ keyList, startsDollar k = true) →
      ∃ out, tqLoop kvs keyList q ps = .ok out := by
  intro keyList
  induction keyList with
  | nil => intro q ps _; exact ⟨(q, ps), rfl⟩
  | cons key rest ih =>
    intro q ps h
    have hk : startsDollar key = true := h key (List.mem_cons_self _ _)
    have hrest : ∀ k ∈ rest, startsDollar k = true :=
      fun k hkm => h k (List.mem_cons_of_mem _ hkm)
    rw [tqLoop, hk]
    simp only [Bool.not_true, Bool.false_eq_true, if_false]
    by_cases hpt : patTest (parsePat (escapeDollars key)) q = true
    · rw [hpt]
      simp only [Bool.not_true, Bool.false_eq_true, if_false]
      cases hlk : List.lookup key kvs with
      | none => exact ih q ps hrest
      | some v =>
        cases v with
        | prim x => exact ih _ _ hrest
        | arr l => exact ih _ _ hrest
    · have hpt2 : patTest (parsePat (escapeDollars key)) q = false := by simpa using hpt
      rw [hpt2]
      simp only [Bool.not_false, if_true]
      exact ih q ps hrest

/-- C8: `queryScalar` returns `null` (and does not fail) when the
executed query yields an empty result set; on a non-empty result set it
returns the value of the first column of the first row, where "first
column" is the first entry of the row in the column order handed back
by the database client — witnessed concretely by a row whose column
order is the reverse of alphabetical order, where the first-declared
column's value is returned, not the alphabetically first. -/
theorem C8_query_scalar {ν α ε : Type} (pool : Pool ν α ε) (c : Client ν α ε)
    (q q2 : List Char) (params : QueryParams α) (ps : Option (List α))
    (htq : transformQuery q params = .ok (q2, ps)) :
    (c.runQuery q2 ps = .ok [] → (queryScalar pool q params (some c)).1 = .ok none) ∧
    (∀ (n : ν) (v : α) (cols : List (ν × α)) (rest : List (Row ν α)),
        c.runQuery q2 ps = .ok (((n, v) :: cols) :: rest) →
        (queryScalar pool q params (some c)).1 = .ok (some v)) ∧
    (queryScalar (poolOf cRowZA) (("SELECT 1").toList) .noParams none).1 =
      .ok (some 10) := by
  refine ⟨?_, ?_, rfl⟩
  · intro hrun
    simp [queryScalar, querySingle, queryMultiple, qmBody, htq, hrun, Except.map]
  · intro n v cols rest hrun
    simp [queryScalar, querySingle, queryMultiple, qmBody, htq, hrun, Except.map]

theorem C8_query_scalar_witness :
    (cOkEmpty.runQuery (("SELECT 1").toList) none = .ok [] →
      (queryScalar (poolOf cOkEmpty) (("SELECT 1").toList) .noParams
        (some cOkEmpty)).1 = .ok none) ∧
    (queryScalar (poolOf cOkEmpty) (("SELECT 1").toList) .noParams
        (some cOkEmpty)).1 = .ok none ∧
    (queryScalar (poolOf cRowZA) (("SELECT 1").toList) .noParams
        (some cRowZA)).1 = .ok (some 10) := by
  have h := C8_query_scalar (poolOf cOkEmpty) cOkEmpty (("SELECT 1").toList)
      (("SELECT 1").toList) .noParams none rfl
  have h2 := C8_query_scalar (poolOf cRowZA) cRowZA (("SELECT 1").toList)
      (("SELECT 1").toList) .noParams none rfl
  refine ⟨h.1, h.1 rfl, ?_⟩
  exact h2.2.1 ("z_col") 10 [("a_col", 20)] [] rfl

/-! ## Fixed-string replacement: basic equations -/

theorem strGo_skip (k rep : List Char) :
    ∀ (s : List Char) (n : Nat), strGo k rep n s = strGo k rep 0 (List.drop n s) := by
  intro s
  induction s with
  | nil => intro n; cases n <;> rfl
  | cons c s ih =>
    intro n
    cases n with
    | zero => rfl
    | succ m => rw [strGo, List.drop_succ_cons, ih m]

theorem replaceAllStr_nil (k rep : List Char) : replaceAllStr k rep [] = [] := rfl

/-- Unfolding at a match position. -/
theorem replaceAllStr_match {k : List Char} (rep : List Char) (hk : k ≠ []) (b : List Char) :
    replaceAllStr k rep (k ++ b) = rep ++ replaceAllStr k rep b := by
  cases k with
  | nil => exact absurd rfl hk
  | cons c t =>
    have hpre : (c :: t).isPrefixOf ((c :: t) ++ b) = true :=
      List.isPrefixOf_iff_prefix.mpr (List.prefix_append _ _)
    have h1 : replaceAllStr (c :: t) rep ((c :: t) ++ b) =
        rep ++ strGo (c :: t) rep ((c :: t).length - 1) (t ++ b) := by
      show strGo (c :: t) rep 0 ((c :: t) ++ b) = _
      rw [List.cons_append, strGo, if_pos (by simp only [List.cons_append] at hpre; simp [hpre])]
    rw [h1, strGo_skip]
    have : List.drop ((c :: t).length - 1) (t ++ b) = b := by
      simp only [List.length_cons, Nat.add_sub_cancel]
      exact List.drop_left t b
    rw [this]
    rfl

/-- Unfolding at a non-match position. -/
theorem replaceAllStr_no_match {k : List Char} (rep : List Char) {c : Char} {s : List Char}
    (h : ¬ k <+: (c :: s)) :
    replaceAllStr k rep (c :: s) = c :: replaceAllStr k rep s := by
  have hpre : k.isPrefixOf (c :: s) = false := by
    rcases hb : k.isPrefixOf (c :: s) with _ | _
    · rfl
    · exact absurd (List.isPrefixOf_iff_prefix.mp hb) h
  rw [replaceAllStr, strGo, if_neg (by simp [hpre])]
  rfl

/-- Replacement leaves a prefix alone when no character of it can start
a match. -/
theorem replaceAllStr_skip_prefix {k : List Char} {h0 : Char} (hk : k.head? = some h0)
    (rep : List Char) :
    ∀ {A : List Char} (z : List Char), (∀ c ∈ A, c ≠ h0) →
      replaceAllStr k rep (A ++ z) = A ++ replaceAllStr k rep z := by
  intro A
  induction A with
  | nil => intro z _; rfl
  | cons c A ih =>
    intro z hA
    have hc : c ≠ h0 := hA c (by simp)
    have hnp : ¬ k <+: (c :: (A ++ z)) := by
      intro hp
      cases k with
      | nil => simp at hk
      | cons kh kt =>
        have hkh : kh = h0 := by simpa using hk
        rcases hp with ⟨u, hu⟩
        rw [List.cons_append] at hu
        injection hu with h1 _
        exact hc (by rw [← h1, hkh])
    rw [List.cons_append, replaceAllStr_no_match rep hnp,
      ih z (fun d hd => hA d (by simp [hd]))]
    rfl

/-! ## Occurrence lemmas -/

theorem occursB_iff {k : List Char} :
    ∀ {s : List Char}, occursB k s = true ↔ ∃ a b, s = a ++ k ++ b := by
  intro s
  induction s with
  | nil =>
    simp only [occursB, List.isEmpty_eq_true]
    constructor
    · rintro rfl; exact ⟨[], [], rfl⟩
    · rintro ⟨a, b, hab⟩
      rcases List.append_eq_nil.mp (hab.symm) with ⟨h1, h2⟩
      rcases List.append_eq_nil.mp h1 with ⟨_, h3⟩
      exact h3
  | cons c s ih =>
    rw [occursB]
    simp only [Bool.or_eq_true, List.isPrefixOf_iff_prefix, ih]
    constructor
    · rintro (⟨u, hu⟩ | ⟨a, b, rfl⟩)
      · exact ⟨[], u, by simp [hu.symm]⟩
      · exact ⟨c :: a, b, by simp⟩
    · rintro ⟨a, b, hab⟩
      cases a with
      | nil =>
        left
        exact ⟨b, by simpa using hab.symm⟩
      | cons a0 a' =>
        right
        have h2 : c = a0 ∧ s = a' ++ (k ++ b) := by simpa using hab
        exact ⟨a', b, by simp [h2.2]⟩

/-- Trichotomy for an occurrence inside a concatenation: the occurrence
lies in the left part, in the right part, or straddles the border. -/
theorem append_occ_decomp {A B a k b : List Char} (h : A ++ B = a ++ k ++ b) :
    (∃ b2, A = a ++ k ++ b2 ∧ b = b2 ++ B) ∨
    (∃ a2, a = A ++ a2 ∧ B = a2 ++ k ++ b) ∨
    (∃ k1 k2, k = k1 ++ k2 ∧ k1 ≠ [] ∧ k2 ≠ [] ∧ A = a ++ k1 ∧ B = k2 ++ b) := by
  have h' : A ++ B = a ++ (k ++ b) := by simpa [List.append_assoc] using h
  rcases List.append_eq_append_iff.mp h' with ⟨w, hw1, hw2⟩ | ⟨w, hw1, hw2⟩
  · -- a = A ++ w, B = w ++ (k ++ b)
    right; left
    exact ⟨w, hw1, by simpa [List.append_assoc] using hw2⟩
  · -- A = a ++ w, k ++ b = w ++ B
    rcases List.append_eq_append_iff.mp hw2.symm with ⟨u, hu1, hu2⟩ | ⟨u, hu1, hu2⟩
    · -- k = w ++ u, B = u ++ b
      cases hw : w with
      | nil =>
        right; left
        subst hw
        refine ⟨[], by simpa using hw1.symm, ?_⟩
        simp only [List.nil_append] at hu1
        simp [← hu1, hu2]
      | cons w0 w' =>
        cases hu : u with
        | nil =>
          left
          subst hu
          simp only [List.append_nil] at hu1
          simp only [List.nil_append] at hu2
          exact ⟨[], by rw [List.append_nil, hw1, hu1], by simpa using hu2.symm⟩
        | cons u0 u' =>
          right; right
          exact ⟨w, u, hu1, by simp [hw], by simp [hu], hw1, hu2⟩
    · -- w = k ++ u, b = u ++ B
      left
      exact ⟨u, by rw [hw1, hu1, List.append_assoc], hu2⟩

/-! ## Cleanliness -/

theorem cleanP_suffix {k : List Char} {A s : List Char} (h : CleanP k (A ++ s)) :
    CleanP k s := by
  intro a b hab
  exact h (A ++ a) b (by rw [hab]; simp [List.append_assoc])

theorem cleanP_cons {k : List Char} {c : Char} {s : List Char} (h : CleanP k (c :: s)) :
    CleanP k s :=
  cleanP_suffix (A := [c]) h

theorem cleanP_head {k : List Char} {b : List Char} (h : CleanP k (k ++ b)) :
    identHead b = false :=
  h [] b rfl

theorem lookup_mem_fst {α : Type} {k : List Char} {kvs : List (List Char × PValue α)}
    (h : k ∈ kvs.map Prod.fst) : ∃ v, List.lookup k kvs = some v := by
  induction kvs with
  | nil => simp at h
  | cons kv rest ih =>
    cases kv with
    | mk k1 v1 =>
      rw [List.map_cons, List.mem_cons] at h
      rcases h with heq | hmem
      · exact ⟨v1, by simp [List.lookup, heq]⟩
      · by_cases hk : k = k1
        · exact ⟨v1, by simp [List.lookup, hk]⟩
        · obtain ⟨v, hv⟩ := ih hmem
          have hb : (k == k1) = false := by simp [hk]
          exact ⟨v, by simp [List.lookup, hb, hv]⟩

theorem ident_dollar_false : isIdentChar ('$') = false := by decide

theorem ident_not_meta {c : Char} (h : isIdentChar c = true) : plainCharB c = true := by
  rcases hm : isMetaChar c with _ | _
  · simp [plainCharB, hm]
  · exfalso
    simp only [isMetaChar, Bool.or_eq_true, decide_eq_true_eq] at hm
    rcases hm with
      (((((((((((((rfl | rfl) | rfl) | rfl) | rfl) | rfl) | rfl) | rfl) | rfl) | rfl) |
        rfl) | rfl) | rfl) | rfl) <;>
      exact absurd h (by decide)

theorem goodKeyP_of_B {k : List Char} (h : goodKeyB k = true) : GoodKeyP k := by
  cases k with
  | nil => simp [goodKeyB] at h
  | cons c rest =>
    cases rest with
    | nil => simp [goodKeyB] at h
    | cons d t =>
      simp only [goodKeyB, Bool.and_eq_true, decide_eq_true_eq] at h
      obtain ⟨⟨⟨hc, hd1⟩, hd2⟩, ht⟩ := h
      subst hc
      refine ⟨d :: t, rfl, by simp, ?_, ?_⟩
      · intro e he
        rcases List.mem_cons.mp he with rfl | he
        · exact hd1
        · exact (List.all_eq_true.mp ht) e he
      · intro e he
        have : d = e := by simpa using he
        subst this
        simpa using hd2

theorem goodKeyP_ne_nil {k : List Char} (h : GoodKeyP k) : k ≠ [] := by
  rcases h with ⟨t, rfl, _⟩; simp

theorem goodKeyP_head {k : List Char} (h : GoodKeyP k) : k.head? = some '$' := by
  rcases h with ⟨t, rfl, _⟩; rfl

theorem goodKeyP_plain {k : List Char} (h : GoodKeyP k) : ∀ c ∈ k, plainCharB c = true := by
  rcases h with ⟨t, rfl, _, hid, _⟩
  intro c hc
  rcases List.mem_cons.mp hc with rfl | hc
  · simp [plainCharB]
  · exact ident_not_meta (hid c hc)

theorem goodKeyP_startsDollar {k : List Char} (h : GoodKeyP k) : startsDollar k = true := by
  rcases h with ⟨t, rfl, _⟩; rfl

/-- Head-class preservation: replacing a good key by a good replacement
in a clean string never turns a head of class `P` (a class containing
only identifier characters and not `$`) into existence: if the string's
head is not of class `P`, neither is the head of the rewritten
string. -/
theorem replaceAll_head_class {P : Char → Bool} (hPd : P ('$') = false)
    (hPid : ∀ c, P c = true → isIdentChar c = true)
    {k rep : List Char} (hgk : GoodKeyP k)
    (hrep : rep = [] ∨ rep.head? = some '$') :
    ∀ s : List Char, CleanP k s → (∀ c, s.head? = some c → P c = false) →
      ∀ c, (replaceAllStr k rep s).head? = some c → P c = false := by
  have hkne : k ≠ [] := goodKeyP_ne_nil hgk
  have main : ∀ n : Nat, ∀ s : List Char, s.length ≤ n →
      CleanP k s → (∀ c, s.head? = some c → P c = false) →
      ∀ c, (replaceAllStr k rep s).head? = some c → P c = false := by
    intro n
    induction n with
    | zero =>
      intro s hs _ _ c hc
      rw [List.length_eq_zero.mp (Nat.le_zero.mp hs)] at hc
      simp [replaceAllStr_nil] at hc
    | succ m ih =>
      intro s hs hclean hhead c hc
      cases s with
      | nil => simp [replaceAllStr_nil] at hc
      | cons c0 s1 =>
        by_cases hk : k <+: (c0 :: s1)
        · obtain ⟨b, hb⟩ := hk
          rw [← hb] at hc hclean hs
          rw [replaceAllStr_match rep hkne] at hc
          have hbl : b.length ≤ m := by
            rw [List.length_append] at hs
            have := List.length_pos.mpr hkne
            omega
          rcases hrep with rfl | hrh
          · rw [List.nil_append] at hc
            have hbhead : ∀ d, b.head? = some d → P d = false := by
              intro d hd
              have hident : identHead b = false := cleanP_head hclean
              cases b with
              | nil => simp at hd
              | cons b0 b' =>
                have hbd : b0 = d := by simpa using hd
                subst hbd
                rcases hPb : P b0 with _ | _
                · rfl
                · have h1 : isIdentChar b0 = true := hPid b0 hPb
                  have h2 : isIdentChar b0 = false := by simpa [identHead] using hident
                  rw [h1] at h2
                  cases h2
            exact ih b hbl (cleanP_suffix hclean) hbhead c hc
          · cases rep with
            | nil => simp at hrh
            | cons r0 r' =>
              have hr0 : r0 = '$' := by simpa using hrh
              have hcr : r0 = c := by
                rw [List.cons_append] at hc
                simpa using hc
              subst hcr
              rw [hr0]
              exact hPd
        · rw [replaceAllStr_no_match rep hk] at hc
          have hcc : c0 = c := by simpa using hc
          subst hcc
          exact hhead _ rfl
  exact fun s => main s.length s le_rfl

/-- If an identifier string `t` is a prefix of the rewritten string,
then `t` was already a prefix of the original string at the same place,
and the rest of the rewritten string is the rewriting of the rest of
the original. -/
theorem replaceAll_tprefix {k rep : List Char} (hgk : GoodKeyP k)
    (hrep : rep = [] ∨ rep.head? = some '$') :
    ∀ s : List Char, CleanP k s → ∀ t b, t ≠ [] → (∀ c ∈ t, isIdentChar c = true) →
      t ++ b = replaceAllStr k rep s →
      ∃ b0, s = t ++ b0 ∧ b = replaceAllStr k rep b0 := by
  have hkne : k ≠ [] := goodKeyP_ne_nil hgk
  have main : ∀ n : Nat, ∀ s : List Char, s.length ≤ n → CleanP k s →
      ∀ t b, t ≠ [] → (∀ c ∈ t, isIdentChar c = true) →
      t ++ b = replaceAllStr k rep s →
      ∃ b0, s = t ++ b0 ∧ b = replaceAllStr k rep b0 := by
    intro n
    induction n with
    | zero =>
      intro s hs _ t b ht _ heq
      rw [List.length_eq_zero.mp (Nat.le_zero.mp hs), replaceAllStr_nil] at heq
      rcases List.append_eq_nil.mp heq with ⟨h1, _⟩
      exact absurd h1 ht
    | succ m ih =>
      intro s hs hclean t b ht htid heq
      cases s with
      | nil =>
        rw [replaceAllStr_nil] at heq
        rcases List.append_eq_nil.mp heq with ⟨h1, _⟩
        exact absurd h1 ht
      | cons c0 s1 =>
        by_cases hk : k <+: (c0 :: s1)
        · obtain ⟨b1, hb1⟩ := hk
          rw [← hb1] at heq hclean hs
          rw [replaceAllStr_match rep hkne] at heq
          cases t with
          | nil => exact absurd rfl ht
          | cons t0 t' =>
            rcases hrep with rfl | hrh
            · rw [List.nil_append] at heq
              have hhead : ∀ c, (replaceAllStr k [] b1).head? = some c →
                  isIdentChar c = false := by
                refine replaceAll_head_class (P := isIdentChar) (by decide)
                  (fun c hc => hc) hgk (Or.inl rfl) b1 (cleanP_suffix hclean) ?_
                intro c hc
                have hident : identHead b1 = false := cleanP_head hclean
                cases b1 with
                | nil => simp at hc
                | cons e es =>
                  have : e = c := by simpa using hc
                  subst this
                  simpa [identHead] using hident
              have ht0 : (replaceAllStr k [] b1).head? = some t0 := by
                rw [← heq]; rfl
              have h1 : isIdentChar t0 = false := hhead t0 ht0
              have h2 : isIdentChar t0 = true := htid t0 (by simp)
              rw [h2] at h1
              cases h1
            · cases rep with
              | nil => simp at hrh
              | cons r0 r' =>
                have hr0 : r0 = '$' := by simpa using hrh
                rw [List.cons_append, List.cons_append] at heq
                injection heq with hh _
                have h2 : isIdentChar t0 = true := htid t0 (by simp)
                rw [hh, hr0] at h2
                cases h2
        · rw [replaceAllStr_no_match rep hk] at heq
          cases t with
          | nil => exact absurd rfl ht
          | cons t0 t' =>
            rw [List.cons_append] at heq
            injection heq with hh htail
            subst hh
            cases ht' : t' with
            | nil =>
              subst ht'
              rw [List.nil_append] at htail
              exact ⟨s1, by simp, htail⟩
            | cons u0 u' =>
              have hlen : s1.length ≤ m := by simpa using hs
              obtain ⟨b0, hb0, hbeq⟩ := ih s1 hlen (cleanP_cons hclean) t' b
                (by simp [ht']) (fun c hc => htid c (by simp [hc])) htail
              exact ⟨b0, by rw [hb0, ht']; rfl, hbeq⟩
  exact fun s => main s.length s le_rfl

/-- Occurrence correspondence: every occurrence of a good key `k` in
the rewriting of a clean string corresponds to an occurrence of `k` in
the original string at a position not covered by a replaced `k0`
occurrence, and the text after it in the rewritten string is the
rewriting of the text after it in the original. -/
theorem replaceAll_occ_corr {k0 rep : List Char} (hgk0 : GoodKeyP k0) (hgrep : GoodRepP rep) :
    ∀ s : List Char, CleanP k0 s → ∀ (k a b : List Char), GoodKeyP k →
      replaceAllStr k0 rep s = a ++ k ++ b →
      ∃ a0 b0, s = a0 ++ k ++ b0 ∧ ¬ (k0 <+: (k ++ b0)) ∧
        b = replaceAllStr k0 rep b0 := by
  have hkne : k0 ≠ [] := goodKeyP_ne_nil hgk0
  have main : ∀ n : Nat, ∀ s : List Char, s.length ≤ n → CleanP k0 s →
      ∀ (k a b : List Char), GoodKeyP k →
      replaceAllStr k0 rep s = a ++ k ++ b →
      ∃ a0 b0, s = a0 ++ k ++ b0 ∧ ¬ (k0 <+: (k ++ b0)) ∧
        b = replaceAllStr k0 rep b0 := by
    intro n
    induction n with
    | zero =>
      intro s hs _ k a b hgk heq
      rw [List.length_eq_zero.mp (Nat.le_zero.mp hs), replaceAllStr_nil] at heq
      rcases List.append_eq_nil.mp heq.symm with ⟨h1, _⟩
      rcases List.append_eq_nil.mp h1 with ⟨_, h2⟩
      exact absurd h2 (goodKeyP_ne_nil hgk)
    | succ m ih =>
      intro s hs hclean k a b hgk heq
      cases s with
      | nil =>
        rw [replaceAllStr_nil] at heq
        rcases List.append_eq_nil.mp heq.symm with ⟨h1, _⟩
        rcases List.append_eq_nil.mp h1 with ⟨_, h2⟩
        exact absurd h2 (goodKeyP_ne_nil hgk)
      | cons c0 s1 =>
        by_cases hpre : k0 <+: (c0 :: s1)
        · obtain ⟨b1, hb1⟩ := hpre
          rw [← hb1] at heq hclean hs
          rw [replaceAllStr_match rep hkne] at heq
          have hb1l : b1.length ≤ m := by
            rw [List.length_append] at hs
            have := List.length_pos.mpr hkne
            omega
          rcases hgk with ⟨t, rfl, htne, htid, htnd⟩
          rcases append_occ_decomp heq with ⟨b2, hrep2, hb2⟩ | ⟨a2, ha2, hR⟩ |
            ⟨k1, k2, hk12, hk1ne, hk2ne, hrep2, hR⟩
          · -- the occurrence lies inside rep: impossible
            exfalso
            rw [List.append_assoc] at hrep2
            have hcons : rep = a ++ '$' :: (t ++ b2) := by simpa using hrep2
            obtain ⟨hne, hdig⟩ := hgrep.2 a (t ++ b2) hcons
            cases t with
            | nil => exact htne rfl
            | cons t0 t' =>
              have h1 : t0.isDigit = true := hdig t0 (by simp)
              have h2 : t0.isDigit = false := htnd t0 rfl
              rw [h1] at h2
              cases h2
          · -- the occurrence lies inside the rewriting of the tail
            obtain ⟨a0, b0, hs1, hnp, hb⟩ := ih b1 hb1l (cleanP_suffix hclean)
              ('$' :: t) a2 b ⟨t, rfl, htne, htid, htnd⟩ hR
            exact ⟨k0 ++ a0, b0, by rw [← hb1, hs1]; simp [List.append_assoc], hnp, hb⟩
          · -- the occurrence straddles the border of rep: impossible
            exfalso
            cases k1 with
            | nil => exact hk1ne rfl
            | cons x k1' =>
              have hx : x = '$' := by
                have := congrArg (fun l => l.head?) hk12
                simpa using this.symm
              subst hx
              obtain ⟨hne, hdig⟩ := hgrep.2 a k1' hrep2
              cases hk1' : k1' with
              | nil => exact hne hk1'
              | cons y k1'' =>
                have hy : y.isDigit = true := by
                  apply hdig
                  rw [hk1']
                  rfl
                have hty : t.head? = some y := by
                  have : t = k1' ++ k2 := by
                    injection hk12
                  rw [this, hk1']
                  rfl
                have h2 : y.isDigit = false := htnd y hty
                rw [hy] at h2
                cases h2
        · rw [replaceAllStr_no_match rep hpre] at heq
          cases a with
          | nil =>
            rw [List.nil_append] at heq
            rcases hgk with ⟨t, rfl, htne, htid, htnd⟩
            rw [List.cons_append] at heq
            injection heq with hc heq2
            obtain ⟨b0, hs1, hb⟩ := replaceAll_tprefix hgk0 hgrep.1 s1
              (cleanP_cons hclean) t b htne htid heq2.symm
            refine ⟨[], b0, ?_, ?_, hb⟩
            · rw [List.nil_append, List.cons_append, hs1, hc]
            · intro hcon
              apply hpre
              rw [List.cons_append, ← hc, ← hs1] at hcon
              exact hcon
          | cons x a2 =>
            rw [List.cons_append, List.cons_append] at heq
            injection heq with hc heq2
            obtain ⟨a0, b0, hs1, hnp, hb⟩ := ih s1 (by simpa using hs)
              (cleanP_cons hclean) k a2 b hgk heq2
            exact ⟨x :: a0, b0, by rw [List.cons_append, hs1, hc]; simp [List.append_assoc],
              hnp, hb⟩
  exact fun s => main s.length s le_rfl

/-! ## Placeholder-index scanner lemmas -/

theorem isDigit_imp_ident {c : Char} (h : c.isDigit = true) : isIdentChar c = true := by
  simp [isIdentChar, Char.isAlphanum, h]

theorem phGo_append {B : List Char} (hB : ∀ c, B.head? = some c → c.isDigit = false) :
    ∀ (A : List Char) (st : PhSt), phGo st (A ++ B) = phGo st A ++ phGo PhSt.plain B := by
  intro A
  induction A with
  | nil =>
    intro st
    cases B with
    | nil => cases st <;> rfl
    | cons b0 B' =>
      have hb0 : b0.isDigit = false := hB b0 rfl
      cases st with
      | plain => simp [phGo]
      | dollar => by_cases h : b0 = '$' <;> simp [phGo, hb0, h]
      | num n => by_cases h : b0 = '$' <;> simp [phGo, hb0, h]
  | cons a0 A' ih =>
    intro st
    cases st with
    | plain =>
      by_cases h : a0 = '$' <;> simp [phGo, h, ih]
    | dollar =>
      by_cases hd : a0.isDigit <;> by_cases h : a0 = '$' <;> simp [phGo, hd, h, ih]
    | num n =>
      by_cases hd : a0.isDigit <;> by_cases h : a0 = '$' <;> simp [phGo, hd, h, ih]

theorem phGo_dollar_eq_plain {B : List Char} (hB : ∀ c, B.head? = some c → c.isDigit = false) :
    phGo PhSt.dollar B = phGo PhSt.plain B := by
  have := phGo_append hB [] PhSt.dollar
  simpa using this

theorem phGo_num_digits {ds : List Char} (hds : ∀ c ∈ ds, c.isDigit = true) :
    ∀ n, phGo (PhSt.num n) ds = [List.foldl (fun a c => 10 * a + (c.toNat - 48)) n ds] := by
  induction ds with
  | nil => intro n; rfl
  | cons d ds' ih =>
    intro n
    have hd : d.isDigit = true := hds d (by simp)
    simp only [phGo, hd, if_true, List.foldl]
    exact ih (fun c hc => hds c (by simp [hc])) _

theorem phGo_plain_ident_nil {t : List Char} (ht : ∀ c ∈ t, isIdentChar c = true) :
    phGo PhSt.plain t = [] := by
  induction t with
  | nil => rfl
  | cons c t' ih =>
    have hc : c ≠ '$' := by
      intro hcc
      have := ht c (by simp)
      rw [hcc] at this
      exact absurd this (by decide)
    simp only [phGo, if_neg hc]
    exact ih (fun d hd => ht d (by simp [hd]))

theorem phGo_plain_goodkey {k : List Char} (hgk : GoodKeyP k) : phGo PhSt.plain k = [] := by
  rcases hgk with ⟨t, rfl, htne, htid, htnd⟩
  have h1 : phGo PhSt.plain ('$' :: t) = phGo PhSt.dollar t := by simp [phGo]
  rw [h1, phGo_dollar_eq_plain, phGo_plain_ident_nil htid]
  intro c hc
  refine htnd c ?_
  cases t with
  | nil => simp at hc
  | cons a t0 => simpa using hc

theorem digitChar_isDigit {d : Nat} (h : d < 10) : (digitChar d).isDigit = true := by
  interval_cases d <;> decide

theorem digitChar_toNat {d : Nat} (h : d < 10) : (digitChar d).toNat = 48 + d := by
  interval_cases d <;> decide

theorem natDigitsAux_digits : ∀ (fuel n : Nat), n < fuel →
    natDigitsAux fuel n ≠ [] ∧ ∀ c ∈ natDigitsAux fuel n, c.isDigit = true := by
  intro fuel
  induction fuel with
  | zero => intro n h; omega
  | succ m ih =>
    intro n h
    by_cases h10 : n < 10
    · refine ⟨by simp [natDigitsAux, h10], ?_⟩
      intro c hc
      rw [natDigitsAux, if_pos h10] at hc
      have : c = digitChar n := by simpa using hc
      subst this
      exact digitChar_isDigit h10
    · have hrec : n / 10 < m := by omega
      obtain ⟨hne, hdig⟩ := ih (n / 10) hrec
      refine ⟨by simp [natDigitsAux, h10], ?_⟩
      intro c hc
      rw [natDigitsAux, if_neg h10] at hc
      rcases List.mem_append.mp hc with hc | hc
      · exact hdig c hc
      · have : c = digitChar (n % 10) := by simpa using hc
        subst this
        exact digitChar_isDigit (by omega)

theorem natDigits_ne_nil (n : Nat) : natDigits n ≠ [] :=
  (natDigitsAux_digits (n + 1) n (by omega)).1

theorem natDigits_all_digit (n : Nat) : ∀ c ∈ natDigits n, c.isDigit = true :=
  (natDigitsAux_digits (n + 1) n (by omega)).2

theorem no_dollar_of_digits {l : List Char} (h : ∀ c ∈ l, c.isDigit = true) :
    ∀ c ∈ l, c ≠ '$' := by
  intro c hc hcc
  have := h c hc
  rw [hcc] at this
  exact absurd this (by decide)

theorem natDigitsAux_foldl : ∀ (fuel n a : Nat), n < fuel →
    List.foldl (fun x c => 10 * x + (c.toNat - 48)) a (natDigitsAux fuel n) =
      a * 10 ^ (natDigitsAux fuel n).length + n := by
  intro fuel
  induction fuel with
  | zero => intro n a h; omega
  | succ m ih =>
    intro n a h
    by_cases h10 : n < 10
    · rw [natDigitsAux, if_pos h10]
      simp [List.foldl, digitChar_toNat h10]
      omega
    · have hrec : n / 10 < m := by omega
      rw [natDigitsAux, if_neg h10]
      rw [List.foldl_append, ih (n / 10) a hrec]
      have hmod : (digitChar (n % 10)).toNat - 48 = n % 10 := by
        rw [digitChar_toNat (by omega)]
        omega
      simp only [List.foldl, hmod, List.length_append, List.length_cons, List.length_nil]
      have hexp : a * 10 ^ ((natDigitsAux m (n / 10)).length + (0 + 1)) =
          (a * 10 ^ (natDigitsAux m (n / 10)).length) * 10 := by
        rw [pow_succ]
        ring
      rw [hexp]
      omega

theorem phGo_dollar_natDigits {z : List Char} (hz : ∀ c, z.head? = some c → c.isDigit = false)
    (m : Nat) :
    phGo PhSt.dollar (natDigits m ++ z) = m :: phGo PhSt.plain z := by
  rw [phGo_append hz]
  cases hnd : natDigits m with
  | nil => exact absurd hnd (natDigits_ne_nil m)
  | cons d ds =>
    have hall := natDigits_all_digit m
    rw [hnd] at hall
    have hd : d.isDigit = true := hall d (by simp)
    have h1 : phGo PhSt.dollar (d :: ds) = phGo (PhSt.num (d.toNat - 48)) ds := by
      simp [phGo, hd]
    rw [h1, phGo_num_digits (fun c hc => hall c (by simp [hc]))]
    have hfold : List.foldl (fun a c => 10 * a + (c.toNat - 48)) (d.toNat - 48) ds =
        List.foldl (fun a c => 10 * a + (c.toNat - 48)) 0 (d :: ds) := by
      simp [List.foldl]
    rw [hfold, ← hnd]
    have := natDigitsAux_foldl (m + 1) m 0 (by omega)
    rw [show natDigits m = natDigitsAux (m + 1) m from rfl, this]
    simp

theorem length_dropWhile_le (p : Char → Bool) (l : List Char) :
    (l.dropWhile p).length ≤ l.length := by
  induction l with
  | nil => simp [List.dropWhile]
  | cons c s ih =>
    rw [List.dropWhile_cons]
    by_cases h : p c = true
    · rw [if_pos h]
      simp only [List.length_cons]
      omega
    · rw [if_neg h]

theorem head_dropWhile_digit_false (l : List Char) :
    ∀ c, (l.dropWhile Char.isDigit).head? = some c → c.isDigit = false := by
  intro c hc
  have := List.head?_dropWhile_not Char.isDigit l
  rw [hc] at this
  exact this

theorem identHead_false_head {b : List Char} (h : identHead b = false) :
    ∀ c, b.head? = some c → isIdentChar c = false := by
  intro c hc
  cases b with
  | nil => simp at hc
  | cons b0 b' =>
    have : b0 = c := by simpa using hc
    subst this
    simpa [identHead] using h

theorem headNotDigit_of_not_ident {b : List Char} (h : identHead b = false) :
    ∀ c, b.head? = some c → c.isDigit = false := by
  intro c hc
  rcases hd : c.isDigit with _ | _
  · rfl
  · have h1 := identHead_false_head h c hc
    rw [isDigit_imp_ident hd] at h1
    cases h1

theorem isPrefixOf_head_ne {k : List Char} {h0 c : Char} (hk : k.head? = some h0)
    (hne : c ≠ h0) {s : List Char} : k.isPrefixOf (c :: s) = false := by
  cases k with
  | nil => simp at hk
  | cons k0 kt =>
    have hk0 : k0 = h0 := by simpa using hk
    rcases hb : (k0 :: kt).isPrefixOf (c :: s) with _ | _
    · rfl
    · exfalso
      rcases List.isPrefixOf_iff_prefix.mp hb with ⟨u, hu⟩
      rw [List.cons_append] at hu
      injection hu with h1 _
      exact hne (by rw [← h1, hk0])

theorem occursB_cons_not_prefix {k : List Char} {c : Char} {s : List Char}
    (h : ¬ k <+: (c :: s)) : occursB k (c :: s) = occursB k s := by
  rw [occursB]
  have : k.isPrefixOf (c :: s) = false := by
    rcases hb : k.isPrefixOf (c :: s) with _ | _
    · rfl
    · exact absurd (List.isPrefixOf_iff_prefix.mp hb) h
  rw [this]
  simp

theorem occursB_skip {k : List Char} {h0 : Char} (hk : k.head? = some h0) :
    ∀ {A : List Char} (z : List Char), (∀ c ∈ A, c ≠ h0) →
      occursB k (A ++ z) = occursB k z := by
  intro A
  induction A with
  | nil => intro z _; rfl
  | cons c A' ih =>
    intro z hA
    rw [List.cons_append, occursB,
      isPrefixOf_head_ne hk (hA c (by simp)), ih z (fun d hd => hA d (by simp [hd]))]
    simp

theorem phGo_dollar_digrun {run : List Char} (hne : run ≠ [])
    (hdig : ∀ c ∈ run, c.isDigit = true) {X : List Char}
    (hX : ∀ c, X.head? = some c → c.isDigit = false) :
    phGo PhSt.dollar (run ++ X) =
      (List.foldl (fun a c => 10 * a + (c.toNat - 48)) 0 run) :: phGo PhSt.plain X := by
  cases run with
  | nil => exact absurd rfl hne
  | cons d run' =>
    have hd : d.isDigit = true := hdig d (by simp)
    have h1 : phGo PhSt.dollar ((d :: run') ++ X) =
        phGo (PhSt.num (d.toNat - 48)) (run' ++ X) := by
      simp [phGo, hd]
    rw [h1, phGo_append hX, phGo_num_digits (fun c hc => hdig c (by simp [hc]))]
    simp [List.foldl]

theorem phIdx_def (s : List Char) : phIdx s = phGo PhSt.plain s := rfl

theorem occursB_nil_of_ne {k : List Char} (h : k ≠ []) : occursB k [] = false := by
  cases k with
  | nil => exact absurd rfl h
  | cons a b => rfl

/-- Effect of one key replacement on the set of placeholder indices of
a clean string: the indices of the rewritten string are exactly those
of the original string plus — when the key occurs at all — those of the
inserted replacement. -/
theorem phIdx_replaceAll {k rep : List Char} (hgk : GoodKeyP k) (hgrep : GoodRepP rep) :
    ∀ s : List Char, CleanP k s → ∀ i : Nat,
      (i ∈ phIdx (replaceAllStr k rep s) ↔
        i ∈ phIdx s ∨ (occursB k s = true ∧ i ∈ phIdx rep)) := by
  have hkne : k ≠ [] := goodKeyP_ne_nil hgk
  have hkhead : k.head? = some '$' := goodKeyP_head hgk
  have hRhead : ∀ b : List Char, CleanP k b → (∀ c, b.head? = some c → c.isDigit = false) →
      ∀ c, (replaceAllStr k rep b).head? = some c → c.isDigit = false :=
    fun b hb hbh => replaceAll_head_class (P := Char.isDigit) (by decide)
      (fun c hc => isDigit_imp_ident hc) hgk hgrep.1 b hb hbh
  have main : ∀ n : Nat, ∀ s : List Char, s.length ≤ n → CleanP k s → ∀ i : Nat,
      (i ∈ phIdx (replaceAllStr k rep s) ↔
        i ∈ phIdx s ∨ (occursB k s = true ∧ i ∈ phIdx rep)) := by
    intro n
    induction n with
    | zero =>
      intro s hs _ i
      rw [List.length_eq_zero.mp (Nat.le_zero.mp hs), replaceAllStr_nil,
        occursB_nil_of_ne hkne]
      simp
    | succ m ih =>
      intro s hs hclean i
      cases s with
      | nil =>
        rw [replaceAllStr_nil, occursB_nil_of_ne hkne]
        simp
      | cons c0 s1 =>
        by_cases hpre : k <+: (c0 :: s1)
        · obtain ⟨b1, hb1⟩ := hpre
          rw [← hb1] at hs hclean ⊢
          have hident : identHead b1 = false := cleanP_head hclean
          have hb1h : ∀ c, b1.head? = some c → c.isDigit = false :=
            headNotDigit_of_not_ident hident
          have hb1clean : CleanP k b1 := cleanP_suffix hclean
          have hb1l : b1.length ≤ m := by
            rw [List.length_append] at hs
            have := List.length_pos.mpr hkne
            omega
          rw [replaceAllStr_match rep hkne]
          have e1 : phIdx (rep ++ replaceAllStr k rep b1) =
              phIdx rep ++ phIdx (replaceAllStr k rep b1) :=
            phGo_append (hRhead b1 hb1clean hb1h) rep PhSt.plain
          have e2 : phIdx (k ++ b1) = phIdx b1 := by
            rw [phIdx_def, phGo_append hb1h k PhSt.plain, phGo_plain_goodkey hgk]
            rfl
          have e3 : occursB k (k ++ b1) = true := occursB_iff.mpr ⟨[], b1, by simp⟩
          rw [e1, e2, e3, List.mem_append, ih b1 hb1l hb1clean i]
          simp only [true_and]
          tauto
        · rw [replaceAllStr_no_match rep hpre]
          have hocc : occursB k (c0 :: s1) = occursB k s1 := occursB_cons_not_prefix hpre
          have hs1clean : CleanP k s1 := cleanP_cons hclean
          have hs1l : s1.length ≤ m := by simpa using hs
          by_cases hc0 : c0 = '$'
          · subst hc0
            cases hh : s1.head? with
            | none =>
              have hs1nil : s1 = [] := by
                cases s1 with
                | nil => rfl
                | cons a b => simp at hh
              subst hs1nil
              rw [replaceAllStr_nil, hocc, occursB_nil_of_ne hkne]
              simp
            | some d =>
              obtain ⟨s2, hs2⟩ : ∃ s2, s1 = d :: s2 := by
                cases s1 with
                | nil => simp at hh
                | cons a b => exact ⟨b, by simpa using (by simpa using hh : a = d) ▸ rfl⟩
              by_cases hd : d.isDigit = true
              · -- a digit run follows the dollar sign
                have hspan : s1.takeWhile Char.isDigit ++ s1.dropWhile Char.isDigit = s1 :=
                  List.takeWhile_append_dropWhile _ _
                have hrun_ne : s1.takeWhile Char.isDigit ≠ [] := by
                  rw [hs2, List.takeWhile_cons, if_pos hd]
                  simp
                have hrun_dig : ∀ c ∈ s1.takeWhile Char.isDigit, c.isDigit = true :=
                  fun c hc => List.mem_takeWhile_imp hc
                have hrun_nd : ∀ c ∈ s1.takeWhile Char.isDigit, c ≠ '$' :=
                  no_dollar_of_digits hrun_dig
                have hz_head : ∀ c, (s1.dropWhile Char.isDigit).head? = some c →
                    c.isDigit = false := head_dropWhile_digit_false _
                have hz_clean : CleanP k (s1.dropWhile Char.isDigit) := by
                  have := hs1clean
                  rw [← hspan] at this
                  exact cleanP_suffix this
                have hz_len : (s1.dropWhile Char.isDigit).length ≤ m :=
                  le_trans (length_dropWhile_le _ _) hs1l
                have hR : replaceAllStr k rep s1 =
                    s1.takeWhile Char.isDigit ++
                      replaceAllStr k rep (s1.dropWhile Char.isDigit) := by
                  conv_lhs => rw [← hspan]
                  exact replaceAllStr_skip_prefix hkhead rep _ hrun_nd
                have eL : phIdx ('$' :: replaceAllStr k rep s1) =
                    (List.foldl (fun a c => 10 * a + (c.toNat - 48)) 0
                      (s1.takeWhile Char.isDigit)) ::
                      phIdx (replaceAllStr k rep (s1.dropWhile Char.isDigit)) := by
                  rw [phIdx_def, show phGo PhSt.plain ('$' :: replaceAllStr k rep s1) =
                    phGo PhSt.dollar (replaceAllStr k rep s1) from by simp [phGo], hR,
                    phGo_dollar_digrun hrun_ne hrun_dig
                      (hRhead _ hz_clean hz_head), ← phIdx_def]
                have eR : phIdx ('$' :: s1) =
                    (List.foldl (fun a c => 10 * a + (c.toNat - 48)) 0
                      (s1.takeWhile Char.isDigit)) ::
                      phIdx (s1.dropWhile Char.isDigit) := by
                  rw [phIdx_def, show phGo PhSt.plain ('$' :: s1) =
                    phGo PhSt.dollar s1 from by simp [phGo]]
                  conv_lhs => rw [← hspan]
                  rw [phGo_dollar_digrun hrun_ne hrun_dig hz_head, ← phIdx_def]
                have hocc2 : occursB k s1 = occursB k (s1.dropWhile Char.isDigit) := by
                  conv_lhs => rw [← hspan]
                  exact occursB_skip hkhead _ hrun_nd
                rw [eL, eR, hocc, hocc2, List.mem_cons, List.mem_cons,
                  ih _ hz_len hz_clean i]
                tauto
              · -- no digit after the dollar sign
                have hs1h : ∀ c, s1.head? = some c → c.isDigit = false := by
                  intro c hc
                  rw [hh] at hc
                  have : d = c := by simpa using hc
                  subst this
                  simpa using hd
                have eL : phIdx ('$' :: replaceAllStr k rep s1) =
                    phIdx (replaceAllStr k rep s1) := by
                  rw [phIdx_def, show phGo PhSt.plain ('$' :: replaceAllStr k rep s1) =
                    phGo PhSt.dollar (replaceAllStr k rep s1) from by simp [phGo],
                    phGo_dollar_eq_plain (hRhead _ hs1clean hs1h), ← phIdx_def]
                have eR : phIdx ('$' :: s1) = phIdx s1 := by
                  rw [phIdx_def, show phGo PhSt.plain ('$' :: s1) =
                    phGo PhSt.dollar s1 from by simp [phGo],
                    phGo_dollar_eq_plain hs1h, ← phIdx_def]
                rw [eL, eR, hocc, ih s1 hs1l hs1clean i]
          · have eL : ∀ X : List Char, phIdx (c0 :: X) = phIdx X := by
              intro X
              rw [phIdx_def, phIdx_def]
              simp [phGo, hc0]
            rw [eL, eL, hocc, ih s1 hs1l hs1clean i]
  exact fun s => main s.length s le_rfl

/-! ## The inserted replacement strings -/

theorem goodRepP_nil : GoodRepP [] := by
  refine ⟨Or.inl rfl, ?_⟩
  intro a b h
  exact absurd h.symm (by simp)

theorem head_of_all_digit {l : List Char} (h : ∀ c ∈ l, c.isDigit = true) :
    ∀ c, l.head? = some c → c.isDigit = true := by
  intro c hc
  cases l with
  | nil => simp at hc
  | cons a l' =>
    have : a = c := by simpa using hc
    subst this
    exact h a (by simp)

theorem dollar_not_mem_digits {l : List Char} (h : ∀ c ∈ l, c.isDigit = true) :
    ('$') ∉ l := by
  intro hmem
  exact (no_dollar_of_digits h ('$') hmem) rfl

theorem goodRepP_step (acc : List Char) (j : Nat) (hacc : GoodRepP acc) :
    GoodRepP (acc ++ ((if acc.isEmpty then [] else [',', ' ']) ++ '$' :: natDigits j)) := by
  constructor
  · cases acc with
    | nil => simp
    | cons a0 acc' =>
      rcases hacc.1 with h | h
      · cases h
      · have : a0 = '$' := by simpa using h
        simp [this]
  · intro a b h
    have h' : acc ++ ((if acc.isEmpty then [] else [',', ' ']) ++ '$' :: natDigits j) =
        a ++ ['$'] ++ b := by simpa using h
    rcases append_occ_decomp h' with ⟨b2, hacc2, hb⟩ | ⟨a2, _, hT⟩ |
      ⟨k1, k2, h12, hk1, hk2, _, _⟩
    · obtain ⟨hne, hdig⟩ := hacc.2 a b2 (by simpa using hacc2)
      cases b2 with
      | nil => exact absurd rfl hne
      | cons x b2' =>
        subst hb
        refine ⟨by simp, ?_⟩
        intro c hc
        have : x = c := by simpa using hc
        subst this
        exact hdig x rfl
    · rcases append_occ_decomp hT with ⟨b2, hsep, _⟩ | ⟨a3, _, hD⟩ |
        ⟨k1, k2, h12, hk1, hk2, _, _⟩
      · exfalso
        by_cases he : acc.isEmpty
        · rw [if_pos he] at hsep
          exact absurd hsep.symm (by simp)
        · rw [if_neg he] at hsep
          have : ('$') ∈ [',', ' '] := by
            rw [hsep]
            simp
          simp at this
      · cases a3 with
        | nil =>
          have hD2 : ('$' : Char) :: natDigits j = '$' :: b := by simpa using hD
          have : natDigits j = b := by injection hD2
          subst this
          exact ⟨natDigits_ne_nil j, head_of_all_digit (natDigits_all_digit j)⟩
        | cons x a3' =>
          exfalso
          have hD2 : ('$' : Char) :: natDigits j = x :: (a3' ++ '$' :: b) := by simpa using hD
          injection hD2 with h1 h2
          have : ('$') ∈ natDigits j := by
            rw [h2]
            simp
          exact dollar_not_mem_digits (natDigits_all_digit j) this
      · exfalso
        have := congrArg List.length h12
        rw [List.length_append] at this
        have l1 := List.length_pos.mpr hk1
        have l2 := List.length_pos.mpr hk2
        simp at this
        omega
    · exfalso
      have := congrArg List.length h12
      rw [List.length_append] at this
      have l1 := List.length_pos.mpr hk1
      have l2 := List.length_pos.mpr hk2
      simp at this
      omega

theorem goodRepP_scalar (m : Nat) : GoodRepP ('$' :: natDigits m) := by
  have := goodRepP_step [] m goodRepP_nil
  simpa using this

theorem phIdx_group_step (acc : List Char) (j : Nat) :
    phIdx (acc ++ ((if acc.isEmpty then [] else [',', ' ']) ++ '$' :: natDigits j)) =
      phIdx acc ++ [j] := by
  have hB : ∀ c, ((if acc.isEmpty then ([] : List Char) else [',', ' ']) ++
      '$' :: natDigits j).head? = some c → c.isDigit = false := by
    intro c hc
    by_cases he : acc.isEmpty
    · rw [if_pos he] at hc
      have : ('$' : Char) = c := by simpa using hc
      subst this
      decide
    · rw [if_neg he] at hc
      have : (',' : Char) = c := by simpa using hc
      subst this
      decide
  rw [phIdx_def, phGo_append hB acc PhSt.plain, ← phIdx_def]
  congr 1
  have hplain : phGo PhSt.plain ('$' :: natDigits j) = [j] := by
    have h1 : phGo PhSt.plain ('$' :: natDigits j) = phGo PhSt.dollar (natDigits j) := by
      simp [phGo]
    have h2 := phGo_dollar_natDigits (z := []) (by intro c hc; simp at hc) j
    rw [h1, ← List.append_nil (natDigits j), h2]
    rfl
  by_cases he : acc.isEmpty
  · rw [if_pos he, List.nil_append, hplain]
  · rw [if_neg he]
    have : phGo PhSt.plain ([',', ' '] ++ '$' :: natDigits j) =
        phGo PhSt.plain ('$' :: natDigits j) := by
      simp [phGo]
    rw [this, hplain]

theorem phIdx_scalar_rep (m : Nat) : phIdx ('$' :: natDigits m) = [m] := by
  have := phIdx_group_step [] m
  simpa using this

/-- Full specification of `pushArr`: it appends the array's elements to
the parameter list exactly once, and builds a well-formed comma-joined
group whose placeholder indices continue the current parameter count.
`L` is the index list already accumulated in `acc`. -/
theorem pushArr_spec {α : Type} :
    ∀ (l : List α) (ps : List α) (acc : List Char) (L : List Nat),
      GoodRepP acc → phIdx acc = L →
      (pushArr l ps acc).1 = ps ++ l ∧
      GoodRepP (pushArr l ps acc).2 ∧
      phIdx (pushArr l ps acc).2 = L ++ List.range' (ps.length + 1) l.length := by
  intro l
  induction l with
  | nil =>
    intro ps acc L hacc hL
    refine ⟨by simp [pushArr], by simpa [pushArr] using hacc, ?_⟩
    simpa [pushArr, List.range'] using hL
  | cons x xs ih =>
    intro ps acc L hacc hL
    have hstep := goodRepP_step acc (ps.length + 1) hacc
    have hidx := phIdx_group_step acc (ps.length + 1)
    rw [hL] at hidx
    obtain ⟨h1, h2, h3⟩ := ih (ps ++ [x])
      (acc ++ ((if acc.isEmpty then [] else [',', ' ']) ++ '$' :: natDigits (ps.length + 1)))
      (L ++ [ps.length + 1]) hstep hidx
    refine ⟨?_, ?_, ?_⟩
    · rw [pushArr]
      rw [show acc ++ ((if acc.isEmpty then [] else [',', ' ']) ++
        '$' :: natDigits (ps.length + 1)) =
        acc ++ (if acc.isEmpty then [] else [',', ' ']) ++
          '$' :: natDigits (ps.length + 1) from by simp [List.append_assoc]] at h1
      rw [h1]
      simp
    · rw [pushArr]
      rw [show acc ++ ((if acc.isEmpty then [] else [',', ' ']) ++
        '$' :: natDigits (ps.length + 1)) =
        acc ++ (if acc.isEmpty then [] else [',', ' ']) ++
          '$' :: natDigits (ps.length + 1) from by simp [List.append_assoc]] at h2
      exact h2
    · rw [pushArr]
      rw [show acc ++ ((if acc.isEmpty then [] else [',', ' ']) ++
        '$' :: natDigits (ps.length + 1)) =
        acc ++ (if acc.isEmpty then [] else [',', ' ']) ++
          '$' :: natDigits (ps.length + 1) from by simp [List.append_assoc]] at h3
      rw [h3, show (ps ++ [x]).length = ps.length + 1 from by simp]
      simp only [List.length_cons]
      rw [show List.range' (ps.length + 1) (xs.length + 1) =
          (ps.length + 1) :: List.range' (ps.length + 2) xs.length from rfl]
      simp [List.append_assoc]

/-! ## Invariant preservation through one loop step -/

theorem identHead_false_of_head {b : List Char}
    (h : ∀ c, b.head? = some c → isIdentChar c = false) : identHead b = false := by
  cases b with
  | nil => rfl
  | cons c b' => simpa [identHead] using h c rfl

theorem ident_ne_dollar {c : Char} (h : isIdentChar c = true) : c ≠ '$' := by
  intro hc
  rw [hc] at h
  exact absurd h (by decide)

theorem replaceAll_identHead_false {k0 rep : List Char} (hgk0 : GoodKeyP k0)
    (hrep1 : rep = [] ∨ rep.head? = some '$') {b : List Char}
    (hb : CleanP k0 b) (hbh : identHead b = false) :
    identHead (replaceAllStr k0 rep b) = false := by
  apply identHead_false_of_head
  exact replaceAll_head_class (P := isIdentChar) (by decide) (fun c hc => hc)
    hgk0 hrep1 b hb (identHead_false_head hbh)

/-- A key skipped because it does not occur cannot cover any occurrence
of a later key. -/
theorem covP_skip {k0 k : List Char} {rest : List (List Char)} {q : List Char}
    (hocc : occursB k0 q = false) (hcov : CovP (k0 :: rest) k q) :
    CovP rest k q := by
  intro a b hab
  rcases hcov a b hab with h | ⟨k2, hk2mem, hlen, hk2pre, hk2after⟩
  · exact Or.inl h
  · rcases List.mem_cons.mp hk2mem with rfl | hk2mem
    · exfalso
      rcases hk2pre with ⟨w, hw⟩
      have : occursB k2 q = true :=
        occursB_iff.mpr ⟨a, w, by rw [hab, List.append_assoc, ← hw]; simp [List.append_assoc]⟩
      rw [this] at hocc
      cases hocc
    · exact Or.inr ⟨k2, hk2mem, hlen, hk2pre, hk2after⟩

/-- The covered-or-clean invariant survives replacing the longest
remaining key. -/
theorem covP_step {k0 rep : List Char} (hgk0 : GoodKeyP k0) (hgrep : GoodRepP rep)
    {rest : List (List Char)} (hgood : ∀ k2 ∈ rest, GoodKeyP k2)
    {q : List Char} (hclean : CleanP k0 q)
    {k : List Char} (hk : GoodKeyP k) (hkcov : CovP (k0 :: rest) k q) :
    CovP rest k (replaceAllStr k0 rep q) := by
  intro a b hab
  obtain ⟨a0, b0, hq0, hnp, hb⟩ := replaceAll_occ_corr hgk0 hgrep q hclean k a b hk hab
  have hclean_b0 : CleanP k0 b0 := by
    have h1 : CleanP k0 (a0 ++ k ++ b0) := by
      rw [← hq0]
      exact hclean
    exact cleanP_suffix (A := a0 ++ k) h1
  rcases hkcov a0 b0 hq0 with h | ⟨k2, hk2mem, hlen, hk2pre, hk2after⟩
  · left
    rw [hb]
    exact replaceAll_identHead_false hgk0 hgrep.1 hclean_b0 h
  · have hk2rest : k2 ∈ rest := by
      rcases List.mem_cons.mp hk2mem with rfl | h2
      · exact absurd hk2pre hnp
      · exact h2
    have hgk2 : GoodKeyP k2 := hgood k2 hk2rest
    have hkpre2 : k <+: k2 :=
      List.prefix_of_prefix_length_le (List.prefix_append k b0) hk2pre (by omega)
    obtain ⟨e, he⟩ := hkpre2
    have hene : e ≠ [] := by
      intro h0
      rw [h0, List.append_nil] at he
      rw [he] at hlen
      omega
    have heid : ∀ c ∈ e, isIdentChar c = true := by
      rcases hk with ⟨t, rfl, htne, htid, _⟩
      rcases hgk2 with ⟨t2, ht2, ht2ne, ht2id, _⟩
      rw [ht2] at he
      rw [List.cons_append] at he
      injection he with _ hte
      intro c hc
      exact ht2id c (by rw [← hte]; simp [hc])
    have hepre : e <+: b0 := by
      rcases hk2pre with ⟨w, hw⟩
      rw [← he, List.append_assoc] at hw
      exact ⟨w, List.append_cancel_left hw⟩
    obtain ⟨z, hz⟩ := hepre
    have hbz : b = e ++ replaceAllStr k0 rep z := by
      rw [hb, ← hz]
      exact replaceAllStr_skip_prefix (goodKeyP_head hgk0) rep z
        (fun c hc => ident_ne_dollar (heid c hc))
    have hzafter : identHead z = false := by
      have h1 : k ++ b0 = k2 ++ z := by
        rw [← hz, ← he]
        simp [List.append_assoc]
      rw [h1] at hk2after
      rwa [List.drop_left] at hk2after
    have hclean_z : CleanP k0 z := by
      have h1 : CleanP k0 (e ++ z) := by
        rw [hz]
        exact hclean_b0
      exact cleanP_suffix h1
    refine Or.inr ⟨k2, hk2rest, hlen, ?_, ?_⟩
    · refine ⟨replaceAllStr k0 rep z, ?_⟩
      rw [← he, hbz]
      simp [List.append_assoc]
    · have h1 : k ++ b = k2 ++ replaceAllStr k0 rep z := by
        rw [hbz, ← he]
        simp [List.append_assoc]
      rw [h1, List.drop_left]
      exact replaceAll_identHead_false hgk0 hgrep.1 hclean_z hzafter

/-! ## Boolean coverage check versus its propositional form -/

theorem covOKB_suffix {keys : List (List Char)} {k : List Char} :
    ∀ {s : List Char}, covOKB keys k s = true →
      ∀ a s2, s = a ++ s2 → s2 ≠ [] → covAtOK keys k s2 = true := by
  intro s
  induction s with
  | nil =>
    intro _ a s2 hs hne
    rcases List.append_eq_nil.mp hs.symm with ⟨_, h2⟩
    exact absurd h2 hne
  | cons c s0 ih =>
    intro h a s2 hs hne
    simp only [covOKB, Bool.and_eq_true] at h
    cases a with
    | nil =>
      simp only [List.nil_append] at hs
      rw [← hs]
      exact h.1
    | cons c1 a0 =>
      rw [List.cons_append] at hs
      injection hs with h1 h2
      exact ih h.2 a0 s2 h2 hne

theorem covOKB_of_forall {keys : List (List Char)} {k : List Char} :
    ∀ {s : List Char}, (∀ a s2, s = a ++ s2 → s2 ≠ [] → covAtOK keys k s2 = true) →
      covOKB keys k s = true := by
  intro s
  induction s with
  | nil => intro _; rfl
  | cons c s0 ih =>
    intro h
    simp only [covOKB, Bool.and_eq_true]
    constructor
    · exact h [] (c :: s0) rfl (by simp)
    · exact ih (fun a s2 hs hne => h (c :: a) s2 (by rw [hs]; rfl) hne)

theorem covAtOK_append {keys : List (List Char)} {k b : List Char} :
    covAtOK keys k (k ++ b) = true ↔
      (identHead b = false ∨
       ∃ k2, k2 ∈ keys ∧ k.length < k2.length ∧ k2 <+: (k ++ b) ∧
         identHead (List.drop k2.length (k ++ b)) = false) := by
  have hpre : k.isPrefixOf (k ++ b) = true :=
    List.isPrefixOf_iff_prefix.mpr (List.prefix_append k b)
  simp only [covAtOK, hpre, Bool.not_true, Bool.false_or, List.drop_left]
  cases hhead : identHead b with
  | false => simp
  | true =>
    simp only [Bool.not_true, Bool.false_or, List.any_eq_true, Bool.and_eq_true,
      decide_eq_true_iff, List.isPrefixOf_iff_prefix, Bool.not_eq_true']
    constructor
    · rintro ⟨k2, hk2, ⟨⟨hlen, hp⟩, haft⟩⟩
      exact Or.inr ⟨k2, hk2, hlen, hp, haft⟩
    · rintro (h | ⟨k2, hk2, hlen, hp, haft⟩)
      · cases h
      · exact ⟨k2, hk2, ⟨⟨hlen, hp⟩, haft⟩⟩

theorem covOKB_iff {keys : List (List Char)} {k : List Char} (hk : k ≠ []) {s : List Char} :
    covOKB keys k s = true ↔ CovP keys k s := by
  constructor
  · intro h a b hab
    have hne : k ++ b ≠ [] := by
      intro h0
      rcases List.append_eq_nil.mp h0 with ⟨h1, _⟩
      exact hk h1
    have hat := covOKB_suffix h a (k ++ b) (by rw [hab, List.append_assoc]) hne
    exact covAtOK_append.mp hat
  · intro h
    apply covOKB_of_forall
    intro a s2 hs hne
    cases hp : k.isPrefixOf s2 with
    | false => simp [covAtOK, hp]
    | true =>
      obtain ⟨b, hb⟩ := List.isPrefixOf_iff_prefix.mp hp
      rw [← hb]
      refine covAtOK_append.mpr (h a b ?_)
      rw [hs, ← hb]
      simp [List.append_assoc]

/-! ## Step equations for the transformation loop -/

theorem tqLoop_cons_skip {α : Type} (kvs : List (List Char × PValue α))
    (key : List Char) (rest : List (List Char)) (q : List Char) (ps : List α)
    (hd : startsDollar key = true)
    (hpt : patTest (parsePat (escapeDollars key)) q = false) :
    tqLoop kvs (key :: rest) q ps = tqLoop kvs rest q ps := by
  rw [tqLoop, hd]
  simp only [Bool.not_true, Bool.false_eq_true, if_false]
  rw [hpt]
  simp

theorem tqLoop_cons_prim {α : Type} (kvs : List (List Char × PValue α))
    (key : List Char) (rest : List (List Char)) (q : List Char) (ps : List α) (x : α)
    (hd : startsDollar key = true)
    (hpt : patTest (parsePat (escapeDollars key)) q = true)
    (hlk : List.lookup key kvs = some (.prim x)) :
    tqLoop kvs (key :: rest) q ps =
      tqLoop kvs rest
        (replaceAllPat (parsePat (escapeDollars key)) ('$' :: natDigits (ps.length + 1)) q)
        (ps ++ [x]) := by
  rw [tqLoop, hd]
  simp only [Bool.not_true, Bool.false_eq_true, if_false]
  rw [hpt]
  simp only [Bool.not_true, Bool.false_eq_true, if_false]
  rw [hlk]

theorem tqLoop_cons_arr {α : Type} (kvs : List (List Char × PValue α))
    (key : List Char) (rest : List (List Char)) (q : List Char) (ps : List α) (l : List α)
    (hd : startsDollar key = true)
    (hpt : patTest (parsePat (escapeDollars key)) q = true)
    (hlk : List.lookup key kvs = some (.arr l)) :
    tqLoop kvs (key :: rest) q ps =
      tqLoop kvs rest
        (replaceAllPat (parsePat (escapeDollars key)) (pushArr l ps []).2 q)
        (pushArr l ps []).1 := by
  rw [tqLoop, hd]
  simp only [Bool.not_true, Bool.false_eq_true, if_false]
  rw [hpt]
  simp only [Bool.not_true, Bool.false_eq_true, if_false]
  rw [hlk]

/-- Monotonicity of the coverage invariant in the key list. -/
theorem covP_mono {keys keys2 : List (List Char)} (hsub : ∀ k2 ∈ keys, k2 ∈ keys2)
    {k q : List Char} (h : CovP keys k q) : CovP keys2 k q := by
  intro a b hab
  rcases h a b hab with h1 | ⟨k2, hk2, hlen, hp, haft⟩
  · exact Or.inl h1
  · exact Or.inr ⟨k2, hsub k2 hk2, hlen, hp, haft⟩

/-- Main loop invariant for the placeholder-index claim: if the keys
still to process are pairwise length-descending, drawn from the
parameter object (whose keys are all `$`-identifiers), every occurrence
of every pending key in the current query is clean or covered by a
strictly longer pending key, and the placeholder indices of the current
query are exactly `1..ps.length`, then the loop succeeds and the final
query's placeholder indices are exactly `1..N` for `N` the final
parameter count. -/
theorem tqLoop_phIdx {α : Type} (kvs : List (List Char × PValue α))
    (hgood : ∀ kv ∈ kvs, GoodKeyP kv.1) :
    ∀ (keyList : List (List Char)) (q : List Char) (ps : List α),
      (∀ k ∈ keyList, k ∈ kvs.map Prod.fst) →
      List.Pairwise (fun a b => b.length ≤ a.length) keyList →
      (∀ k ∈ keyList, CovP keyList k q) →
      (∀ i, i ∈ phIdx q ↔ 1 ≤ i ∧ i ≤ ps.length) →
      ∃ q2 ps2, tqLoop kvs keyList q ps = .ok (q2, ps2) ∧
        ∀ i, (i ∈ phIdx q2 ↔ 1 ≤ i ∧ i ≤ ps2.length) := by
  intro keyList
  induction keyList with
  | nil =>
    intro q ps _ _ _ hidx
    exact ⟨q, ps, rfl, hidx⟩
  | cons key rest ih =>
    intro q ps hmem hpw hcov hidx
    have hmemk : key ∈ kvs.map Prod.fst := hmem key (List.mem_cons_self _ _)
    have hgk : GoodKeyP key := by
      rcases List.mem_map.mp hmemk with ⟨kv, hkv, hfst⟩
      rw [← hfst]
      exact hgood kv hkv
    have hplain : ∀ c ∈ key, plainCharB c = true := goodKeyP_plain hgk
    have hrx : parsePat (escapeDollars key) = key.map PatTok.lit := parsePat_escape hplain
    have hptocc : patTest (parsePat (escapeDollars key)) q = occursB key q := by
      rw [hrx, patTest_lit]
    have hmemrest : ∀ k ∈ rest, k ∈ kvs.map Prod.fst :=
      fun k hk => hmem k (List.mem_cons_of_mem _ hk)
    have hgoodrest : ∀ k ∈ rest, GoodKeyP k := by
      intro k hk
      rcases List.mem_map.mp (hmemrest k hk) with ⟨kv, hkv, hfst⟩
      rw [← hfst]
      exact hgood kv hkv
    obtain ⟨hmax, hpwrest⟩ := List.pairwise_cons.mp hpw
    have hd : startsDollar key = true := goodKeyP_startsDollar hgk
    cases hocc : occursB key q with
    | false =>
      rw [tqLoop_cons_skip kvs key rest q ps hd (hptocc.trans hocc)]
      exact ih q ps hmemrest hpwrest
        (fun k hk => covP_skip hocc (hcov k (List.mem_cons_of_mem _ hk))) hidx
    | true =>
      have hcovkey : CovP (key :: rest) key q := hcov key (List.mem_cons_self _ _)
      have hclean : CleanP key q := by
        intro a b hab
        rcases hcovkey a b hab with h | ⟨k2, hk2mem, hlen, _, _⟩
        · exact h
        · exfalso
          rcases List.mem_cons.mp hk2mem with rfl | h2
          · omega
          · have := hmax k2 h2
            omega
      obtain ⟨v, hlk⟩ := lookup_mem_fst hmemk
      cases v with
      | prim x =>
        rw [tqLoop_cons_prim kvs key rest q ps x hd (hptocc.trans hocc) hlk,
          hrx, replaceAllPat_lit]
        have hgrep : GoodRepP ('$' :: natDigits (ps.length + 1)) :=
          goodRepP_scalar (ps.length + 1)
        refine ih _ _ hmemrest hpwrest
          (fun k hk => covP_step hgk hgrep hgoodrest hclean (hgoodrest k hk)
            (hcov k (List.mem_cons_of_mem _ hk))) ?_
        intro i
        rw [phIdx_replaceAll hgk hgrep q hclean i, phIdx_scalar_rep, hidx i, hocc]
        simp only [List.length_append, List.length_cons, List.length_nil, List.mem_singleton,
          true_and]
        constructor
        · rintro (⟨h1, h2⟩ | rfl) <;> omega
        · rintro ⟨h1, h2⟩
          by_cases hi : i ≤ ps.length
          · exact Or.inl ⟨h1, hi⟩
          · exact Or.inr (by omega)
      | arr l =>
        rw [tqLoop_cons_arr kvs key rest q ps l hd (hptocc.trans hocc) hlk,
          hrx, replaceAllPat_lit]
        obtain ⟨hfst, hgrep, hphi⟩ := pushArr_spec l ps [] [] goodRepP_nil rfl
        refine ih _ _ hmemrest hpwrest
          (fun k hk => covP_step hgk hgrep hgoodrest hclean (hgoodrest k hk)
            (hcov k (List.mem_cons_of_mem _ hk))) ?_
        intro i
        rw [phIdx_replaceAll hgk hgrep q hclean i, hphi, hfst, hidx i, hocc]
        simp only [List.nil_append, List.length_append, List.mem_range'_1, true_and]
        omega

/-- C2: for every query and named parameter set in the specification's
domain — every key is a `$`-prefixed identifier (the data model's named
placeholder shape), the query contains no pre-existing positional
placeholder, and every occurrence of a key is a maximal identifier
token or lies at the start of an occurrence of a strictly longer key
that is (the no-token-collision proviso of the specification, phrased
so that its own prefix-sharing example is admitted) — `transformQuery`
succeeds and the positional placeholder indices occurring in the
rewritten query are exactly `1..N` with `N` the length of the returned
positional parameter list: contiguous, no gaps, starting at 1. -/
theorem C2_placeholder_indices {α : Type} (q : List Char)
    (kvs : List (List Char × PValue α))
    (hkeys : ∀ kv ∈ kvs, goodKeyB kv.1 = true)
    (hq : phIdx q = [])
    (hcov : ∀ kv ∈ kvs, covOKB (kvs.map Prod.fst) kv.1 q = true) :
    ∃ q2 ps2, transformQuery q (.named kvs) = .ok (q2, some ps2) ∧
      ∀ i, (i ∈ phIdx q2 ↔ 1 ≤ i ∧ i ≤ ps2.length) := by
  have hgood : ∀ kv ∈ kvs, GoodKeyP kv.1 := fun kv hkv => goodKeyP_of_B (hkeys kv hkv)
  have hperm := sortKeysDesc_perm (kvs.map Prod.fst)
  have hsortmem : ∀ k ∈ sortKeysDesc (kvs.map Prod.fst), k ∈ kvs.map Prod.fst :=
    fun k hk => hperm.mem_iff.mp hk
  have hcovS : ∀ k ∈ sortKeysDesc (kvs.map Prod.fst),
      CovP (sortKeysDesc (kvs.map Prod.fst)) k q := by
    intro k hk
    rcases List.mem_map.mp (hsortmem k hk) with ⟨kv, hkv, hfst⟩
    have hkne : k ≠ [] := goodKeyP_ne_nil (by rw [← hfst]; exact hgood kv hkv)
    have h1 : CovP (kvs.map Prod.fst) k q := by
      refine (covOKB_iff hkne).mp ?_
      rw [← hfst]
      exact hcov kv hkv
    exact covP_mono (fun k2 hk2 => hperm.mem_iff.mpr hk2) h1
  obtain ⟨q2, ps2, heq, hinv⟩ := tqLoop_phIdx kvs hgood
    (sortKeysDesc (kvs.map Prod.fst)) q [] hsortmem
    (sortKeysDesc_pairwise (kvs.map Prod.fst)) hcovS
    (by intro i; rw [hq]; simp; omega)
  refine ⟨q2, ps2, ?_, hinv⟩
  simp only [transformQuery, heq]

/-- C2 witness: the specification's own prefix-sharing example.  The
query has two occurrences of `$value`, one of them inside the longer
key `$value2`; the transformation succeeds and the resulting
placeholder indices are exactly `1..2`. -/
theorem C2_placeholder_indices_witness :
    ∃ q2 ps2,
      transformQuery (("field = $value2 AND field2 = $value").toList)
        (QueryParams.named
          [((("$value").toList), PValue.prim (1 : Nat)),
           ((("$value2").toList), PValue.prim 2)]) = .ok (q2, some ps2) ∧
      ∀ i, (i ∈ phIdx q2 ↔ 1 ≤ i ∧ i ≤ ps2.length) :=
  C2_placeholder_indices (("field = $value2 AND field2 = $value").toList)
    [((("$value").toList), PValue.prim 1), ((("$value2").toList), PValue.prim 2)]
    (by decide) (by decide) (by decide)

/-! ## The refined model agrees with the collapsed one on plain keys -/

theorem plain_not_special {c : Char} (hc : plainCharB c = true) (hd : c ≠ '$') :
    c ≠ '\\' ∧ c ≠ '[' ∧ c ≠ '(' ∧ c ≠ ')' := by
  have hm : isMetaChar c = false := by
    simp only [plainCharB, Bool.or_eq_true, decide_eq_true_eq] at hc
    rcases hc with h | h
    · exact absurd h hd
    · simpa using h
  refine ⟨?_, ?_, ?_, ?_⟩ <;> intro h <;> rw [h] at hm <;> exact absurd hm (by decide)

/-- The escaped form of a metacharacter-free key passes the delimiter
scan without changing its state: it consists of ordinary characters and
`\$` pairs only. -/
theorem rxScan_escape_plain {k : List Char} (h : ∀ c ∈ k, plainCharB c = true) :
    ∀ t, rxScan 0 false false (escapeDollars k ++ t) = rxScan 0 false false t := by
  induction k with
  | nil => intro t; rfl
  | cons c s ih =>
    intro t
    have hc := h c (List.mem_cons_self _ _)
    have ihs := ih (fun d hd => h d (List.mem_cons_of_mem _ hd))
    by_cases hd : c = '$'
    · subst hd
      have hstep : escapeDollars ('$' :: s) ++ t = '\\' :: '$' :: (escapeDollars s ++ t) := by
        simp [escapeDollars]
      rw [hstep]
      have h1 : rxScan 0 false false ('\\' :: '$' :: (escapeDollars s ++ t)) =
          rxScan 0 false false (escapeDollars s ++ t) := rfl
      rw [h1, ihs]
    · obtain ⟨h1, h2, h3, h4⟩ := plain_not_special hc hd
      have hstep : escapeDollars (c :: s) ++ t = c :: (escapeDollars s ++ t) := by
        simp [escapeDollars, hd]
      rw [hstep]
      have hr : rxScan 0 false false (c :: (escapeDollars s ++ t)) =
          rxScan 0 false false (escapeDollars s ++ t) := by
        rw [rxScan]
        rw [if_neg (by decide : ¬((false : Bool) = true))]
        rw [if_neg h1]
        rw [if_neg (by decide : ¬((false : Bool) = true))]
        rw [if_neg h2, if_neg h3, if_neg h4]
      rw [hr, ihs]

/-- `new RegExp` genuinely succeeds on the escaped form of a
metacharacter-free key, and so does its model. -/
theorem rxCompiles_escape_plain {k : List Char} (h : ∀ c ∈ k, plainCharB c = true) :
    rxCompiles (escapeDollars k) = true := by
  have h2 := rxScan_escape_plain h []
  rw [List.append_nil] at h2
  show rxScan 0 false false (escapeDollars k) = true
  rw [h2]
  rfl

/-- On key lists whose `$`-prefixed keys are metacharacter-free, the
refined loop is the collapsed loop: every compilation succeeds, so the
two models take identical branches with identical state. -/
theorem tqLoopJS_eq {α : Type} (kvs : List (List Char × PValue α)) :
    ∀ (keyList : List (List Char)) (q : List Char) (ps : List α),
      (∀ k ∈ keyList, startsDollar k = true → ∀ c ∈ k, plainCharB c = true) →
      tqLoopJS kvs keyList q ps = liftTQ (tqLoop kvs keyList q ps) := by
  intro keyList
  induction keyList with
  | nil => intro q ps _; rfl
  | cons key rest ih =>
    intro q ps h
    have hrest : ∀ k ∈ rest, startsDollar k = true → ∀ c ∈ k, plainCharB c = true :=
      fun k hk => h k (List.mem_cons_of_mem _ hk)
    by_cases hd : startsDollar key = true
    · have hplain : ∀ c ∈ key, plainCharB c = true := h key (List.mem_cons_self _ _) hd
      have hcmp : rxCompiles (escapeDollars key) = true := rxCompiles_escape_plain hplain
      rw [tqLoopJS, tqLoop, hd, hcmp]
      simp only [Bool.not_true, Bool.false_eq_true, if_false]
      by_cases hpt : patTest (parsePat (escapeDollars key)) q = true
      · rw [hpt]
        simp only [Bool.not_true, Bool.false_eq_true, if_false]
        cases hlk : List.lookup key kvs with
        | none => exact ih q ps hrest
        | some v =>
          cases v with
          | prim x => exact ih _ _ hrest
          | arr l => exact ih _ _ hrest
      · have hpt2 : patTest (parsePat (escapeDollars key)) q = false := by simpa using hpt
        rw [hpt2]
        simp only [Bool.not_false, if_true]
        exact ih q ps hrest
    · have hd2 : startsDollar key = false := by simpa using hd
      rw [tqLoopJS, tqLoop, hd2]
      rfl

/-- C7 counterexample: in the parameter object with keys `$((` and
`ab`, the key `ab` does not start with `$`, yet the
invalid-parameter-name error is never raised: the source sorts `$((`
first (it is longer), passes its `startsWith("$")` check, and then
`new RegExp("\$((", "g")` throws a `SyntaxError` (unterminated groups)
before the bad key `ab` is ever examined.  The refined transformation
fails with the pattern error for `\$((`, not with the
invalid-parameter-name error, refuting the original claim. -/
theorem C7_counterexample :
    (startsDollar (("ab").toList) = false ∧
      ("ab").toList ∈ ([((("$((").toList), PValue.prim (1 : Nat)),
        ((("ab").toList), PValue.prim 2)].map Prod.fst)) ∧
    transformQueryJS (("SELECT 1").toList)
        (QueryParams.named [((("$((").toList), PValue.prim (1 : Nat)),
          ((("ab").toList), PValue.prim 2)]) =
      .error (.badPattern (("\\$((").toList)) ∧
    ∀ k, transformQueryJS (("SELECT 1").toList)
        (QueryParams.named [((("$((").toList), PValue.prim (1 : Nat)),
          ((("ab").toList), PValue.prim 2)]) ≠
      .error (.invalidParamName k) := by
  refine ⟨by decide, by decide, ?_⟩
  intro k hk
  have h : transformQueryJS (("SELECT 1").toList)
      (QueryParams.named [((("$((").toList), PValue.prim (1 : Nat)),
        ((("ab").toList), PValue.prim 2)]) =
      .error (.badPattern (("\\$((").toList)) := by decide
  rw [h] at hk
  injection hk with h2
  injection h2

/-- C7 (amended): for a named (non-array) parameter object whose
`$`-prefixed keys contain no regular-expression metacharacter — so
every compiled pattern is valid; outside this fragment the `RegExp`
constructor can raise its own `SyntaxError` before any bad-key check is
reached, see `C7_counterexample` — the invalid-parameter-name error is
raised, identifying an offending key of the object, exactly when some
key does not start with `$`: if a bad key exists the transformer (in
the refined model and the collapsed one alike) returns that error, and
every executor call with those parameters fails with it while never
issuing any statement on the connection (no run event on any path,
whether the client was supplied or pooled); if every key starts with
`$` the transformer succeeds and the error is never raised. -/
theorem C7_invalid_param_name {ν α ε : Type} (pool : Pool ν α ε) (q : List Char)
    (kvs : List (List Char × PValue α))
    (hplain : ∀ kv ∈ kvs, startsDollar kv.1 = true → ∀ c ∈ kv.1, plainCharB c = true) :
    ((∃ k, k ∈ kvs.map Prod.fst ∧ startsDollar k = false) →
      ∃ k, transformQueryJS q (.named kvs) = .error (.invalidParamName k) ∧
        transformQuery q (.named kvs) = .error (.invalidParamName k) ∧
        k ∈ kvs.map Prod.fst ∧ startsDollar k = false ∧
        (∀ copt : Option (Client ν α ε),
            hasRun (queryMultiple pool q (.named kvs) copt).2 = false) ∧
        (∀ c : Client ν α ε,
            (queryMultiple pool q (.named kvs) (some c)).1 =
              .error (.invalidParamName k))) ∧
    ((∀ k ∈ kvs.map Prod.fst, startsDollar k = true) →
      ∃ out, transformQueryJS q (.named kvs) = .ok out ∧
        transformQuery q (.named kvs) = .ok out) := by
  have hplainS : ∀ k ∈ sortKeysDesc (kvs.map Prod.fst),
      startsDollar k = true → ∀ c ∈ k, plainCharB c = true := by
    intro k hk
    rcases List.mem_map.mp (((sortKeysDesc_perm _).mem_iff).mp hk) with ⟨kv, hkv, hfst⟩
    rw [← hfst]
    exact hplain kv hkv
  have hEq : tqLoopJS kvs (sortKeysDesc (kvs.map Prod.fst)) q [] =
      liftTQ (tqLoop kvs (sortKeysDesc (kvs.map Prod.fst)) q []) :=
    tqLoopJS_eq kvs _ q [] hplainS
  constructor
  · intro hbad
    have hbad2 : ∃ k, k ∈ sortKeysDesc (kvs.map Prod.fst) ∧ startsDollar k = false := by
      rcases hbad with ⟨k, hmem, hb⟩
      exact ⟨k, ((sortKeysDesc_perm _).mem_iff).mpr hmem, hb⟩
    rcases tqLoop_error_of_bad kvs (sortKeysDesc (kvs.map Prod.fst)) q [] hbad2 with
      ⟨k, heq, hmem, hb⟩
    have htq : transformQuery q (.named kvs) = .error (.invalidParamName k) := by
      rw [transformQuery, heq]
    have heqJ : tqLoopJS kvs (sortKeysDesc (kvs.map Prod.fst)) q [] =
        .error (.invalidParamName k) := by
      rw [hEq, heq]
      rfl
    have htqJ : transformQueryJS q (.named kvs) = .error (.invalidParamName k) := by
      rw [transformQueryJS, heqJ]
    refine ⟨k, htqJ, htq, ((sortKeysDesc_perm _).mem_iff).mp hmem, hb, ?_, ?_⟩
    · intro copt
      cases copt with
      | some c => simp [queryMultiple, qmBody, htq, hasRun]
      | none =>
        cases hcon : pool.connect with
        | error e => simp [queryMultiple, hcon, hasRun]
        | ok c => simp [queryMultiple, hcon, qmBody, htq, hasRun]
    · intro c
      simp [queryMultiple, qmBody, htq]
  · intro hgood
    have hgood2 : ∀ k ∈ sortKeysDesc (kvs.map Prod.fst), startsDollar k = true :=
      fun k hk => hgood k (((sortKeysDesc_perm _).mem_iff).mp hk)
    rcases tqLoop_ok_of_good kvs (sortKeysDesc (kvs.map Prod.fst)) q [] hgood2 with
      ⟨out, hout⟩
    have houtJ : tqLoopJS kvs (sortKeysDesc (kvs.map Prod.fst)) q [] = .ok out := by
      rw [hEq, hout]
      rfl
    exact ⟨(out.1, some out.2), by rw [transformQueryJS, houtJ],
      by rw [transformQuery, hout]⟩

theorem C7_invalid_param_name_witness :
    ∃ k, transformQueryJS (("SELECT 1").toList)
        (QueryParams.named [((("name").toList), PValue.prim (1 : Nat))]) =
        .error (.invalidParamName k) ∧
      transformQuery (("SELECT 1").toList)
        (QueryParams.named [((("name").toList), PValue.prim (1 : Nat))]) =
        .error (.invalidParamName k) ∧
      k ∈ [((("name").toList), PValue.prim (1 : Nat))].map Prod.fst ∧
      startsDollar k = false ∧
      (∀ copt : Option (Client Nat Nat Nat),
          hasRun (queryMultiple (poolOf cOkEmpty) (("SELECT 1").toList)
            (.named [((("name").toList), .prim 1)]) copt).2 = false) ∧
      (∀ c : Client Nat Nat Nat,
          (queryMultiple (poolOf cOkEmpty) (("SELECT 1").toList)
            (.named [((("name").toList), .prim 1)]) (some c)).1 =
            .error (.invalidParamName k)) :=
  (C7_invalid_param_name (poolOf cOkEmpty) (("SELECT 1").toList)
    [((("name").toList), .prim 1)] (by decide)).1 (by decide)
